import Mathlib

/-!
Verification of the similarity pipeline of the FileTimeFixer repository
(module `similar_images/similarity.py`, with the relevant glue from
`cli.py`).  Paths are modelled as strings, perceptual hashes as bit
lists, Python `datetime` values as calendar records, similarity scores
as exact rationals, and the filesystem / image decoder / EXIF reader as
explicit oracle functions.  Every definition is translated from the
source; definitions whose name ends in `Spec` restate the prose
specification for comparison.
-/

/-- A filesystem path (Python `pathlib.Path`), modelled as its string form. -/
abbrev FPath := String

/-- A perceptual hash: a fixed-length bit string (`imagehash.ImageHash`). -/
abbrev PHash := List Bool

/-- Byte-wise (code-point) string order, the order Python uses when
comparing and sorting `str`-rendered paths. -/
def strLeB : List Char → List Char → Bool
  | [], _ => true
  | _ :: _, [] => false
  | a :: as, b :: bs =>
    if a.toNat < b.toNat then true
    else if a.toNat = b.toNat then strLeB as bs
    else false

/-- Path order (`sorted` over paths / tuple tie-breaks on `str(p)`). -/
def pathLe (p q : FPath) : Prop := strLeB p.toList q.toList = true

instance pathLeDec : DecidableRel pathLe := fun p q => by unfold pathLe; infer_instance

/-- `h1 - h2` on `imagehash.ImageHash`: the number of positions where the
two bit strings differ (Hamming distance). -/
def phashDist (h1 h2 : PHash) : Nat :=
  (List.zip h1 h2).countP (fun bc => !(bc.1 == bc.2))

/-- `HASH_BITS` from `similarity.py`: default pHash bit length (16 * 16). -/
def HASH_BITS : Nat := 256

/-- `similarity_score(h1, h2, bits)` from `similarity.py`:
`max(0.0, 1.0 - d / bits)` where `d = h1 - h2`. -/
def similarity_score (h1 h2 : PHash) (bits : Nat) : ℚ :=
  max 0 (1 - (phashDist h1 h2 : ℚ) / (bits : ℚ))

/-- `LEVEL_DEFAULTS` from `similarity.py`: Hamming thresholds by level. -/
def LEVEL_DEFAULTS : List (Int × Int) := [(1, 5), (2, 15), (3, 25)]

/-- The effective Hamming threshold of one invocation:
`threshold if threshold is not None else LEVEL_DEFAULTS.get(level, LEVEL_DEFAULTS[2])`
(line 251 of `similarity.py`; `LEVEL_DEFAULTS[2] = 15`). -/
def effectiveHam (level : Int) (threshold : Option Int) : Int :=
  threshold.getD ((LEVEL_DEFAULTS.lookup level).getD 15)

/-- A Python `datetime` restricted to whole seconds, as produced by
`datetime(y, mo, d, h, mi, s)` in the filename-time parser. -/
structure PyDT where
  year : Nat
  month : Nat
  day : Nat
  hour : Nat
  minute : Nat
  second : Nat
deriving DecidableEq, Repr

/-- Gregorian leap-year test used by Python's `datetime`. -/
def isLeapYear (y : Nat) : Bool :=
  y % 4 == 0 && (y % 100 != 0 || y % 400 == 0)

/-- Days in a month, as validated by the `datetime` constructor. -/
def daysInMonth (y m : Nat) : Nat :=
  if m = 2 then (if isLeapYear y then 29 else 28)
  else if m = 4 ∨ m = 6 ∨ m = 9 ∨ m = 11 then 30
  else 31

/-- Validity of the calendar fields: exactly the condition under which
`datetime(y, mo, d, h, mi, s)` does not raise `ValueError`. -/
def validDT (t : PyDT) : Bool :=
  1 ≤ t.year && t.year ≤ 9999 &&
  1 ≤ t.month && t.month ≤ 12 &&
  1 ≤ t.day && t.day ≤ daysInMonth t.year t.month &&
  t.hour ≤ 23 && t.minute ≤ 59 && t.second ≤ 59

/-- Leap days occurring in years `1..n`. -/
def leapDaysUpTo (n : Nat) : Nat := n / 4 - n / 100 + n / 400

/-- Days in the months of year `y` strictly before month `m`. -/
def daysBeforeMonth (y m : Nat) : Nat :=
  (List.range m).foldl (fun acc k => if 1 ≤ k then acc + daysInMonth y k else acc) 0

/-- A `datetime` as a count of seconds since `datetime.min`
(year 1, Jan 1, 00:00:00); differences of `datetime` values in the source
(`.total_seconds()`) equal differences of this count. -/
def dtToSecs (t : PyDT) : Nat :=
  (((t.year - 1) * 365 + leapDaysUpTo (t.year - 1)
      + daysBeforeMonth t.year t.month + (t.day - 1)) * 24 * 60 * 60)
    + t.hour * 3600 + t.minute * 60 + t.second

/-- ASCII decimal digit, the `\d` of the source's patterns. -/
def isDig (c : Char) : Bool := c.isDigit

/-- Numeric value of a digit string, as Python `int(...)`. -/
def digitsToNat (cs : List Char) : Nat :=
  cs.foldl (fun acc c => acc * 10 + (c.toNat - 48)) 0

/-- Try to split off exactly `n` ASCII digits from the front. -/
def takeDigits : Nat → List Char → Option (List Char × List Char)
  | 0, cs => some ([], cs)
  | _ + 1, [] => none
  | n + 1, c :: cs =>
    if isDig c then
      match takeDigits n cs with
      | some (ds, rest) => some (c :: ds, rest)
      | none => none
    else none

/-- Match the pattern `(\d{8})_(\d{6})` anchored at the front of `cs`,
returning the two digit groups. -/
def matchDTHere (cs : List Char) : Option (List Char × List Char) :=
  match takeDigits 8 cs with
  | none => none
  | some (d8, rest) =>
    match rest with
    | [] => none
    | c :: rest2 =>
      if c = '_' then
        match takeDigits 6 rest2 with
        | none => none
        | some (d6, _) => some (d8, d6)
      else none

/-- Match the pattern `(\d{8})` anchored at the front of `cs`. -/
def matchD8Here (cs : List Char) : Option (List Char) :=
  match takeDigits 8 cs with
  | none => none
  | some (d8, _) => some d8

/-- `re.search` for `(\d{8})_(\d{6})`: leftmost match over the stem. -/
def searchDT : List Char → Option (List Char × List Char)
  | [] => none
  | c :: cs =>
    match matchDTHere (c :: cs) with
    | some r => some r
    | none => searchDT cs

/-- `re.search` for `(\d{8})`: leftmost match over the stem. -/
def searchD8 : List Char → Option (List Char)
  | [] => none
  | c :: cs =>
    match matchD8Here (c :: cs) with
    | some r => some r
    | none => searchD8 cs

/-- Build the `datetime` argument tuple from an 8-digit date group and a
6-digit time group, exactly as lines 82-83 / 90 of `similarity.py` slice
the matched strings. -/
def fieldsOf (d8 t6 : List Char) : PyDT :=
  ⟨digitsToNat (d8.take 4), digitsToNat ((d8.drop 4).take 2),
   digitsToNat ((d8.drop 6).take 2), digitsToNat (t6.take 2),
   digitsToNat ((t6.drop 2).take 2), digitsToNat ((t6.drop 4).take 2)⟩

/-- The date-only fallback of `parse_datetime_from_filename`: the second
regex attempt, giving time 00:00:00 on a valid match. -/
def dateFallback (cs : List Char) : Option PyDT :=
  match searchD8 cs with
  | some d8 =>
    let t := fieldsOf d8 ['0', '0', '0', '0', '0', '0']
    if validDT t then some t else none
  | none => none

/-- `parse_datetime_from_filename` from `similarity.py`, on the file stem:
try `(\d{8})_(\d{6})`, validate; on a miss (no match or `ValueError`)
try `(\d{8})` with time 00:00:00, validate; otherwise `None`. -/
def parse_datetime_from_filename (stem : String) : Option PyDT :=
  let cs := stem.toList
  match searchDT cs with
  | some (d8, t6) =>
    let t := fieldsOf d8 t6
    if validDT t then some t else dateFallback cs
  | none => dateFallback cs

/-- Whether the pattern `(\d{8})_(\d{6})` matches at offset `i` of `cs`. -/
def dtMatchAt (cs : List Char) (i : Nat) : Bool :=
  decide (i + 15 ≤ cs.length)
    && ((cs.drop i).take 8).all isDig
    && ((cs.drop (i + 8)).take 1 == ['_'])
    && ((cs.drop (i + 9)).take 6).all isDig

/-- Whether the pattern `(\d{8})` matches at offset `i` of `cs`. -/
def d8MatchAt (cs : List Char) (i : Nat) : Bool :=
  decide (i + 8 ≤ cs.length) && ((cs.drop i).take 8).all isDig

/-- Modelled from the spec: the date-only fallback, by leftmost offset. -/
def dateFallbackSpec (cs : List Char) : Option PyDT :=
  match (List.range (cs.length + 1)).find? (fun i => d8MatchAt cs i) with
  | some i =>
    let t := fieldsOf ((cs.drop i).take 8) ['0', '0', '0', '0', '0', '0']
    if validDT t then some t else none
  | none => none

/-- Modelled from the spec: the filename-time parser restated
declaratively — take the leftmost offset where `(\d{8})_(\d{6})` matches,
validate the calendar fields; on a miss take the leftmost offset where
`(\d{8})` matches, with time 00:00:00; else none. -/
def parseFilenameSpec (stem : String) : Option PyDT :=
  let cs := stem.toList
  match (List.range (cs.length + 1)).find? (fun i => dtMatchAt cs i) with
  | some i =>
    let t := fieldsOf ((cs.drop i).take 8) ((cs.drop (i + 9)).take 6)
    if validDT t then some t else dateFallbackSpec cs
  | none => dateFallbackSpec cs

/-- Lower-case a string (`str.lower` on ASCII extensions). -/
def lowerStr (s : String) : String := String.mk (s.toList.map Char.toLower)

/-- Split a character list on a separator (`str.split`). -/
def splitOnChar (sep : Char) : List Char → List (List Char)
  | [] => [[]]
  | c :: rest =>
    match splitOnChar sep rest with
    | [] => [[]]
    | g :: gs => if c = sep then [] :: g :: gs else (c :: g) :: gs

/-- The final component of a path (`Path.name`). -/
def fileName (p : FPath) : String := String.mk ((splitOnChar '/' p.toList).getLastD [])

/-- The extension (with dot) of a file name, as `pathlib` computes it:
the part from the last dot on, empty when there is no dot or the only
dot is the leading character. -/
def sufxList (name : List Char) : List Char :=
  let tail := name.reverse.takeWhile (fun c => c ≠ '.')
  if tail.length = name.length then []
  else if tail.length + 1 = name.length then []
  else '.' :: tail.reverse

/-- `Path.suffix`. -/
def pathSuffix (p : FPath) : String := String.mk (sufxList (fileName p).toList)

/-- `Path.stem`: the file name without its suffix. -/
def pathStem (p : FPath) : String :=
  let n := (fileName p).toList
  String.mk (n.take (n.length - (sufxList n).length))

/-- `IMAGE_EXTENSIONS` from `similarity.py`. -/
def IMAGE_EXTENSIONS : List String :=
  [".jpg", ".jpeg", ".png", ".bmp", ".gif", ".tiff", ".tif", ".webp", ".heic", ".raw"]

/-- `_is_image`: lowercased suffix in the extension set. -/
def _is_image (p : FPath) : Bool := IMAGE_EXTENSIONS.contains (lowerStr (pathSuffix p))

/-- The filesystem as seen by `_collect_image_paths`: whether the root
resolves to a directory, and the regular files its walk yields. -/
structure FSModel where
  isDir : Bool
  walk : List FPath

/-- `_collect_image_paths`: empty when the root is not a directory, else
the walked regular files with a recognised image extension. -/
def _collect_image_paths (fs : FSModel) : List FPath :=
  if fs.isDir then fs.walk.filter _is_image else []

/-- `_should_compare_by_time` (closure in `find_similar_pairs_with_scores`):
compare unless both filename timestamps parse and differ by more than the
window. -/
def _should_compare_by_time (tw : Option Int) (p1 p2 : FPath) : Bool :=
  match tw with
  | none => true
  | some w =>
    match parse_datetime_from_filename (pathStem p1),
          parse_datetime_from_filename (pathStem p2) with
    | some t1, some t2 => |(dtToSecs t1 : Int) - (dtToSecs t2 : Int)| ≤ w
    | _, _ => true

/-- `cli.py` lines 540-542: with `--fast`, recursion on and no user
`--time-window`, the filename-time window defaults to 1 second. -/
def cliTimeWindow (fast recursive : Bool) (userWindow : Option Int) : Option Int :=
  if fast && recursive && userWindow.isNone then some 1 else userWindow

/-- One candidate pair of the compare loop (lines 406-418): skipped by the
time filter, or emitted with its similarity iff `d <= ham`. -/
def pairStep (sc : FPath → FPath → Bool) (ham : Int)
    (p1 : FPath) (h1 : PHash) (p2 : FPath) (h2 : PHash) :
    Option (FPath × FPath × ℚ) :=
  if sc p1 p2 then
    if (phashDist h1 h2 : Int) ≤ ham then
      some (p1, p2, similarity_score h1 h2 HASH_BITS)
    else none
  else none

/-- The upper-triangle compare loop of `find_similar_pairs_with_scores`
(`for i ...: for j in range(i+1, ...)`), collecting the emitted triples. -/
def comparePairs (sc : FPath → FPath → Bool) (ham : Int) :
    List (FPath × PHash) → List (FPath × FPath × ℚ)
  | [] => []
  | (p1, h1) :: rest =>
    rest.filterMap (fun q => pairStep sc ham p1 h1 q.1 q.2) ++ comparePairs sc ham rest

/-- A progress-callback invocation (`phase, current, total, detail, sim`). -/
inductive ProgressEv where
  | hash (cur total : Nat) (p : FPath)
  | compare (cur total : Nat) (p1 p2 : FPath) (sim : ℚ)

/-- The hash phase: each collected path is fed to `_compute_phash`; paths
whose decode fails are skipped. -/
def hashPhase (phash : FPath → Option PHash) (paths : List FPath) :
    List (FPath × PHash) :=
  paths.filterMap (fun p => (phash p).map (fun h => (p, h)))

/-- Inner loop of the compare-progress events, threading `pair_idx`. -/
def compareEvsInner (sc : FPath → FPath → Bool) (total : Nat)
    (p1 : FPath) (h1 : PHash) :
    List (FPath × PHash) → Nat → List ProgressEv × Nat
  | [], idx => ([], idx)
  | (p2, h2) :: rest, idx =>
    if sc p1 p2 then
      let e := ProgressEv.compare idx total p1 p2 (similarity_score h1 h2 HASH_BITS)
      let r := compareEvsInner sc total p1 h1 rest (idx + 1)
      (e :: r.1, r.2)
    else compareEvsInner sc total p1 h1 rest idx

/-- Outer loop of the compare-progress events. -/
def compareEvsOuter (sc : FPath → FPath → Bool) (total : Nat) :
    List (FPath × PHash) → Nat → List ProgressEv
  | [], _ => []
  | (p1, h1) :: rest, idx =>
    let r := compareEvsInner sc total p1 h1 rest idx
    r.1 ++ compareEvsOuter sc total rest r.2

/-- The single-threaded non-fast branch of `find_similar_pairs_with_scores`
(lines 248-251 and 391-419), instrumented: the returned triples, the list
of paths handed to the hasher, and the progress-callback invocations. -/
def find_similar_pairs_with_scoresST (fs : FSModel) (phash : FPath → Option PHash)
    (level : Int) (threshold : Option Int) (timeWindow : Option Int) :
    List (FPath × FPath × ℚ) × List FPath × List ProgressEv :=
  let paths := _collect_image_paths fs
  if paths.length < 2 then ([], [], [])
  else
    let ham := effectiveHam level threshold
    let sc := _should_compare_by_time timeWindow
    let items := hashPhase phash paths
    let n := items.length
    let totalPairs := if 2 ≤ n then n * (n - 1) / 2 else 0
    let hashEvs := paths.enum.map (fun ip => ProgressEv.hash ip.1 paths.length ip.2)
    let cmpEvs := if 0 < totalPairs then compareEvsOuter sc totalPairs items 0 else []
    (comparePairs sc ham items, paths, hashEvs ++ cmpEvs)

/-- `_size_close` (closure in `_exif_sorted_candidate_pairs`): true when a
size is unknown (0), else `abs(s1 - s2) <= min(s1, s2) * 0.05`. -/
def _size_close (sizeOf : FPath → Nat) (p1 p2 : FPath) : Bool :=
  let s1 := sizeOf p1
  let s2 := sizeOf p2
  if s1 = 0 ∨ s2 = 0 then true
  else decide (|(s1 : ℚ) - (s2 : ℚ)| ≤ (min s1 s2 : ℚ) * (5 / 100))

/-- The sort key of `_exif_sorted_candidate_pairs`:
`(True, datetime.min, str(p))` without EXIF, `(False, t, str(p))` with;
the Python bool is rendered as 0/1 (`False < True`). -/
def exifKey (exif : FPath → Option Nat) (p : FPath) : Nat × Nat × String :=
  match exif p with
  | none => (1, 0, p)
  | some t => (0, t, p)

/-- Python tuple order on the sort keys (lexicographic). -/
def exifLe (exif : FPath → Option Nat) (p q : FPath) : Prop :=
  (exifKey exif p).1 < (exifKey exif q).1
  ∨ ((exifKey exif p).1 = (exifKey exif q).1
     ∧ ((exifKey exif p).2.1 < (exifKey exif q).2.1
        ∨ ((exifKey exif p).2.1 = (exifKey exif q).2.1
           ∧ pathLe (exifKey exif p).2.2 (exifKey exif q).2.2)))

instance exifLeDec (exif : FPath → Option Nat) : DecidableRel (exifLe exif) :=
  fun p q => by unfold exifLe; infer_instance

/-- The EXIF time of an entry in the EXIF-bearing part (always present
there; `getD 0` mirrors the source's `assert t is not None`). -/
def exifTimeOf (exif : FPath → Option Nat) (p : FPath) : Nat := (exif p).getD 0

/-- The sliding-window loop over the EXIF-bearing sorted entries: for each
`i`, walk `j > i` while the time gap stays within the window (`break`
afterwards), keeping size-close pairs. -/
def slideWindow (exif : FPath → Option Nat) (sizeOf : FPath → Nat) (W : Int) :
    List FPath → List (FPath × FPath)
  | [] => []
  | p :: rest =>
    ((rest.takeWhile (fun q =>
          decide ((exifTimeOf exif q : Int) - (exifTimeOf exif p : Int) ≤ W))).filter
        (fun q => _size_close sizeOf p q)).map (fun q => (p, q))
      ++ slideWindow exif sizeOf W rest

/-- All upper-triangle pairs of the no-EXIF entries, size-filtered. -/
def allClosePairs (sizeOf : FPath → Nat) : List FPath → List (FPath × FPath)
  | [] => []
  | p :: rest =>
    (rest.filter (fun q => _size_close sizeOf p q)).map (fun q => (p, q))
      ++ allClosePairs sizeOf rest

/-- `_exif_sorted_candidate_pairs` from `similarity.py` (lines 98-157). -/
def _exif_sorted_candidate_pairs (exif : FPath → Option Nat) (sizeOf : FPath → Nat)
    (group : List FPath) (W : Int) : List (FPath × FPath) :=
  if W ≤ 0 ∨ group.length < 2 then []
  else
    let sortedPaths := List.insertionSort (exifLe exif) group
    let pre := sortedPaths.filter (fun p => (exif p).isSome)
    let suf := sortedPaths.filter (fun p => (exif p).isNone)
    slideWindow exif sizeOf W pre ++ allClosePairs sizeOf suf

/-- The recursive `find` with path compression (lines 543-548 / 189-192):
`if parent[x] != x: parent[x] = find(parent[x]); return parent[x]`.
The parent map is a total function (identity off its keys); the fuel
argument bounds the recursion depth and, at the fuel the callers pass,
never runs out on an acyclic map. -/
def ufFind : Nat → (FPath → FPath) → FPath → FPath × (FPath → FPath)
  | 0, f, x => (x, f)
  | n + 1, f, x =>
    if f x = x then (x, f)
    else
      let r := ufFind n f (f x)
      (r.1, Function.update r.2 x r.1)

/-- The union-find state: the parent map and its key set (Python dict
keys, in insertion order). -/
structure UFState where
  f : FPath → FPath
  keys : List FPath

/-- Key insertion of `find` (`if x not in parent: parent[x] = x`). -/
def addKey (keys : List FPath) (x : FPath) : List FPath :=
  if x ∈ keys then keys else keys ++ [x]

/-- `find(x)` on the state: insert the key, chase and compress. -/
def stFind (s : UFState) (x : FPath) : FPath × UFState :=
  let ks := addKey s.keys x
  let r := ufFind ks.length s.f x
  (r.1, ⟨r.2, ks⟩)

/-- `union(x, y)` (lines 550-553): link root of `x` to root of `y`. -/
def stUnion (s : UFState) (x y : FPath) : UFState :=
  let a := stFind s x
  let b := stFind a.2 y
  if a.1 = b.1 then b.2 else ⟨Function.update b.2.f a.1 b.1, b.2.keys⟩

/-- `groups.setdefault(r, []).append(p)` over an insertion-ordered map. -/
def addToGroups (acc : List (FPath × List FPath)) (r p : FPath) :
    List (FPath × List FPath) :=
  match acc with
  | [] => [(r, [p])]
  | e :: rest => if e.1 = r then (e.1, e.2 ++ [p]) :: rest else e :: addToGroups rest r p

/-- The grouping loop `for p in parent: groups.setdefault(find(p), []).append(p)`. -/
def groupByRoot : UFState → List FPath → List (FPath × List FPath) → List (FPath × List FPath)
  | _, [], acc => acc
  | s, p :: rest, acc =>
    let r := stFind s p
    groupByRoot r.2 rest (addToGroups acc r.1 p)

/-- `pairs_to_groups` from `similarity.py` (lines 537-561). -/
def pairs_to_groups (pairs : List (FPath × FPath × ℚ)) : List (List FPath) :=
  if pairs.isEmpty then []
  else
    let s := pairs.foldl (fun s pr => stUnion s pr.1 pr.2.1) ⟨id, []⟩
    let grps := groupByRoot s s.keys []
    ((grps.map Prod.snd).filter (fun g => 2 ≤ g.length)).map
      (fun g => List.insertionSort pathLe g)

/-- The all-pairs union loop of `find_similar_groups` (lines 199-205). -/
def unionLoop (ham : Int) : List (FPath × PHash) → UFState → UFState
  | [], s => s
  | (p1, h1) :: rest, s =>
    unionLoop ham rest
      (rest.foldl (fun s q => if (phashDist h1 q.2 : Int) ≤ ham then stUnion s p1 q.1 else s) s)

/-- `find_similar_groups` from `similarity.py` (lines 160-212). -/
def find_similar_groups (fs : FSModel) (phash : FPath → Option PHash)
    (level : Int) (threshold : Option Int) : List (List FPath) :=
  let paths := _collect_image_paths fs
  if paths.length < 2 then []
  else
    let ham := effectiveHam level threshold
    let items := hashPhase phash paths
    let s0 : UFState := ⟨id, items.map Prod.fst⟩
    let s := unionLoop ham items s0
    let grps := groupByRoot s s.keys []
    ((grps.map Prod.snd).filter (fun g => 2 ≤ g.length)).map
      (fun g => List.insertionSort pathLe g)

/-- The sort key of `get_files_to_delete_from_groups`:
`(0 if t is None else 1, t or datetime.min)`; note that it does not
mention the path. -/
def delKey (exif : FPath → Option Nat) (p : FPath) : Nat × Nat :=
  match exif p with
  | none => (0, 0)
  | some t => (1, t)

/-- Python tuple order on the deletion keys. -/
def delKeyLe (exif : FPath → Option Nat) (p q : FPath) : Prop :=
  (delKey exif p).1 < (delKey exif q).1
  ∨ ((delKey exif p).1 = (delKey exif q).1 ∧ (delKey exif p).2 ≤ (delKey exif q).2)

instance delKeyLeDec (exif : FPath → Option Nat) : DecidableRel (delKeyLe exif) :=
  fun p q => by unfold delKeyLe; infer_instance

/-- The kept member of one group: the last of the stable-sorted order for
`keep == "newer"`, the first otherwise (`sorted_group[-1]` / `[0]`). -/
def keepOfGroup (exif : FPath → Option Nat) (keep : String) (g : List FPath) :
    Option FPath :=
  let sg := List.insertionSort (delKeyLe exif) g
  if keep = "newer" then sg.getLast? else sg.head?

/-- `get_files_to_delete_from_groups` from `similarity.py` (lines 564-588):
stable-sort each group by `(has_exif, exif_time_or_min)`, keep the last
element for `"newer"` and the first otherwise, delete the remaining
members in the group's own order.  (On an empty group the source raises
`IndexError`; clusters always have members.) -/
def get_files_to_delete_from_groups (exif : FPath → Option Nat)
    (groups : List (List FPath)) (keep : String) : List FPath :=
  groups.flatMap (fun g =>
    match keepOfGroup exif keep g with
    | none => []
    | some kp => g.filter (fun p => p ≠ kp))

/-- Modelled from the spec (§4.8): the same selector but sorting by the
three-part key `(has_exif, exif_time_or_min, path)`, the path included as
final tie-break. -/
def delKeyLeSpec (exif : FPath → Option Nat) (p q : FPath) : Prop :=
  (delKey exif p).1 < (delKey exif q).1
  ∨ ((delKey exif p).1 = (delKey exif q).1
     ∧ ((delKey exif p).2 < (delKey exif q).2
        ∨ ((delKey exif p).2 = (delKey exif q).2 ∧ pathLe p q)))

instance delKeyLeSpecDec (exif : FPath → Option Nat) : DecidableRel (delKeyLeSpec exif) :=
  fun p q => by unfold delKeyLeSpec; infer_instance

/-- Modelled from the spec (§4.8): `get_files_to_delete_from_groups` as
the spec words it, with the path in the sort key. -/
def getFilesToDeleteSpec (exif : FPath → Option Nat)
    (groups : List (List FPath)) (keep : String) : List FPath :=
  groups.flatMap (fun g =>
    let sg := List.insertionSort (delKeyLeSpec exif) g
    match (if keep = "newer" then sg.getLast? else sg.head?) with
    | none => []
    | some kp => g.filter (fun p => p ≠ kp))

/-- Modelled from the spec (§7, kind 5): the fail-fast argument policy the
spec prescribes for the threshold and level — an error for a negative
threshold or for a level outside `{1,2,3}` without an explicit threshold. -/
def thresholdPolicySpec (level : Int) (threshold : Option Int) : Except String Int :=
  match threshold with
  | some t => if t < 0 then Except.error "negative threshold" else Except.ok t
  | none =>
    if level = 1 ∨ level = 2 ∨ level = 3 then Except.ok (effectiveHam level none)
    else Except.error "level outside 1..3"

/-- The chase relation of the parent map: `r` is reached from `x` by
iterating `f`, and is a fixpoint (a union-find root). -/
def RootedAt (f : FPath → FPath) (x r : FPath) : Prop :=
  ∃ n, f^[n] x = r ∧ f r = r

/-- Two paths lie in the same union-find class. -/
def SameRoot (f : FPath → FPath) (a b : FPath) : Prop :=
  ∃ r, RootedAt f a r ∧ RootedAt f b r

/-- The invariant of the union-find state: distinct keys, identity off
the keys, parent values that are keys (or self), and every chase
terminating at a root. -/
def UFInv (s : UFState) : Prop :=
  s.keys.Nodup
  ∧ (∀ x, x ∉ s.keys → s.f x = x)
  ∧ (∀ x, s.f x = x ∨ s.f x ∈ s.keys)
  ∧ (∀ x, ∃ r, RootedAt s.f x r)

/-- The canonical root of `x`, as computed by `find` (first component of
`stFind`). -/
def rootD (s : UFState) (x : FPath) : FPath :=
  (ufFind (addKey s.keys x).length s.f x).1

/-- The grouping loop with the root map abstracted to a pure function. -/
def pureGroups (rho : FPath → FPath) :
    List FPath → List (FPath × List FPath) → List (FPath × List FPath)
  | [], acc => acc
  | p :: rest, acc => pureGroups rho rest (addToGroups acc (rho p) p)

/-- The bookkeeping invariant of the grouping fold: distinct roots as
keys, and each entry holding exactly the processed paths with that root,
in order. -/
def GroupsGood (rho : FPath → FPath) (processed : List FPath)
    (acc : List (FPath × List FPath)) : Prop :=
  (acc.map Prod.fst).Nodup
  ∧ (∀ e ∈ acc, e.2 = processed.filter (fun p => rho p = e.1))
  ∧ (∀ r, (∃ p ∈ processed, rho p = r) → r ∈ acc.map Prod.fst)

/-! ## Helper lemmas -/

theorem effectiveHam_default (level : Int) (h1 : level ≠ 1) (h2 : level ≠ 2)
    (h3 : level ≠ 3) : effectiveHam level none = 15 := by
  simp only [effectiveHam, LEVEL_DEFAULTS, List.lookup, Option.getD_none]
  rw [beq_eq_false_iff_ne.mpr h1, beq_eq_false_iff_ne.mpr h2, beq_eq_false_iff_ne.mpr h3]
  rfl

theorem pairStep_sc {sc ham p1 h1 p2 h2 t} (h : pairStep sc ham p1 h1 p2 h2 = some t) :
    sc p1 p2 = true ∧ (phashDist h1 h2 : Int) ≤ ham
      ∧ t = (p1, p2, similarity_score h1 h2 HASH_BITS) := by
  unfold pairStep at h
  by_cases hsc : sc p1 p2 = true
  · rw [if_pos hsc] at h
    by_cases hd : (phashDist h1 h2 : Int) ≤ ham
    · rw [if_pos hd] at h
      exact ⟨hsc, hd, (Option.some_injective _ h).symm⟩
    · rw [if_neg hd] at h
      exact absurd h (by simp)
  · rw [if_neg hsc] at h
    exact absurd h (by simp)

theorem pairStep_neg {sc ham p1 h1 p2 h2} (h : ham < 0) :
    pairStep sc ham p1 h1 p2 h2 = none := by
  unfold pairStep
  have hd : ¬ (phashDist h1 h2 : Int) ≤ ham := by
    intro hle
    exact absurd (lt_of_le_of_lt hle h) (not_lt.mpr (Int.natCast_nonneg _))
  by_cases hsc : sc p1 p2 = true
  · rw [if_pos hsc, if_neg hd]
  · rw [if_neg hsc]

theorem comparePairs_neg (sc) (items : List (FPath × PHash)) {ham : Int} (h : ham < 0) :
    comparePairs sc ham items = [] := by
  induction items with
  | nil => rfl
  | cons q rest ih =>
    obtain ⟨p1, h1⟩ := q
    show List.filterMap _ rest ++ comparePairs sc ham rest = []
    rw [ih, List.append_nil, List.filterMap_eq_nil_iff]
    intro a _
    rw [pairStep_neg h]

/-- C5: the effective Hamming threshold is the explicit override when
given, else the level default from `{1 ↦ 5, 2 ↦ 15, 3 ↦ 25}`, else the
level-2 default 15; being a pure value computed once, it cannot change
during a run. -/
theorem c5_threshold_policy :
    (∀ (level t : Int), effectiveHam level (some t) = t)
    ∧ effectiveHam 1 none = 5 ∧ effectiveHam 2 none = 15 ∧ effectiveHam 3 none = 25
    ∧ (∀ level : Int, level ≠ 1 → level ≠ 2 → level ≠ 3 → effectiveHam level none = 15) := by
  refine ⟨fun level t => rfl, by decide, by decide, by decide, ?_⟩
  exact effectiveHam_default

theorem c5_threshold_policy_witness :
    effectiveHam 5 (some 7) = 7 ∧ effectiveHam 7 none = 15 :=
  ⟨c5_threshold_policy.1 5 7,
   c5_threshold_policy.2.2.2.2 7 (by decide) (by decide) (by decide)⟩

/-- C6 counterexample: at concrete invalid arguments the code does not
fail fast as the claim states.  The fail-fast policy modelled from the
spec rejects level 7, but the code's threshold policy silently falls back
to 15; a non-directory root yields a silent empty collection; and a
negative threshold is accepted, the compare loop then silently emitting
nothing even for identical hashes. -/
theorem c6_counterexample :
    thresholdPolicySpec 7 none = Except.error "level outside 1..3"
    ∧ effectiveHam 7 none = 15
    ∧ thresholdPolicySpec 2 (some (-5)) = Except.error "negative threshold"
    ∧ effectiveHam 2 (some (-5)) = -5
    ∧ _collect_image_paths ⟨false, ["a.jpg"]⟩ = []
    ∧ comparePairs (fun _ _ => true) (-5) [("a", [true]), ("b", [true])] = [] := by
  refine ⟨rfl, by decide, rfl, rfl, rfl, rfl⟩

/-- C6 amended: the core entry points recover silently from the three
invalid-argument cases instead of failing fast — a level outside `{1,2,3}`
with no override falls back to the default threshold 15, a root that is
not a directory yields an empty collection and hence an empty result, and
a negative threshold yields an empty similar-pairs list (Hamming distance
is never negative). -/
theorem c6_silent_recovery :
    (∀ level : Int, level ≠ 1 → level ≠ 2 → level ≠ 3 → effectiveHam level none = 15)
    ∧ (∀ fs : FSModel, fs.isDir = false → _collect_image_paths fs = [])
    ∧ (∀ sc items (ham : Int), ham < 0 → comparePairs sc ham items = [])
    ∧ (∀ fs phash level threshold tw, fs.isDir = false →
        find_similar_pairs_with_scoresST fs phash level threshold tw = ([], [], [])) := by
  have hcol : ∀ fs : FSModel, fs.isDir = false → _collect_image_paths fs = [] := by
    intro fs h
    unfold _collect_image_paths
    rw [h]
    rfl
  refine ⟨effectiveHam_default, hcol, fun sc items ham h => comparePairs_neg sc items h, ?_⟩
  intro fs phash level threshold tw h
  unfold find_similar_pairs_with_scoresST
  rw [hcol fs h]
  rfl

theorem c6_silent_recovery_witness :
    effectiveHam 9 none = 15
    ∧ _collect_image_paths ⟨false, ["b.png"]⟩ = []
    ∧ comparePairs (fun _ _ => true) (-1) [("a", [true]), ("b", [true])] = []
    ∧ find_similar_pairs_with_scoresST ⟨false, ["b.png"]⟩ (fun _ => some [true]) 2 none none
        = ([], [], []) :=
  ⟨c6_silent_recovery.1 9 (by decide) (by decide) (by decide),
   c6_silent_recovery.2.1 ⟨false, ["b.png"]⟩ rfl,
   c6_silent_recovery.2.2.1 (fun _ _ => true) [("a", [true]), ("b", [true])] (-1) (by decide),
   c6_silent_recovery.2.2.2 ⟨false, ["b.png"]⟩ (fun _ => some [true]) 2 none none rfl⟩

theorem mem_comparePairs {sc : FPath → FPath → Bool} {ham : Int}
    {items : List (FPath × PHash)} {t} (h : t ∈ comparePairs sc ham items) :
    ∃ h1 h2, List.Sublist [(t.1, h1), (t.2.1, h2)] items ∧ sc t.1 t.2.1 = true
      ∧ (phashDist h1 h2 : Int) ≤ ham ∧ t.2.2 = similarity_score h1 h2 HASH_BITS := by
  induction items with
  | nil => exact absurd h (List.not_mem_nil t)
  | cons q rest ih =>
    obtain ⟨p1, hh1⟩ := q
    rcases List.mem_append.mp h with hl | hr
    · obtain ⟨w, hw, hstep⟩ := List.mem_filterMap.mp hl
      obtain ⟨hsc, hd, ht⟩ := pairStep_sc hstep
      subst ht
      refine ⟨hh1, w.2, ?_, hsc, hd, rfl⟩
      exact List.Sublist.cons₂ _ (List.singleton_sublist.mpr (by simpa using hw))
    · obtain ⟨h1, h2, hsub, hsc, hd, ht⟩ := ih hr
      exact ⟨h1, h2, hsub.cons _, hsc, hd, ht⟩

theorem comparePairs_mem_of {sc : FPath → FPath → Bool} {ham : Int}
    {items : List (FPath × PHash)} {p1 p2 : FPath} {h1 h2 : PHash}
    (hsub : List.Sublist [(p1, h1), (p2, h2)] items)
    (hsc : sc p1 p2 = true) (hd : (phashDist h1 h2 : Int) ≤ ham) :
    (p1, p2, similarity_score h1 h2 HASH_BITS) ∈ comparePairs sc ham items := by
  induction items with
  | nil => exact absurd hsub (by simp)
  | cons q rest ih =>
    cases hsub with
    | cons _ hs => exact List.mem_append_right _ (ih hs)
    | cons₂ _ hs =>
      refine List.mem_append_left _ (List.mem_filterMap.mpr ⟨(p2, h2), List.singleton_sublist.mp hs, ?_⟩)
      unfold pairStep
      rw [if_pos hsc, if_pos hd]

theorem comparePairs_mono {sc : FPath → FPath → Bool} {ham ham' : Int}
    (hh : ham ≤ ham') {items : List (FPath × PHash)} {t}
    (h : t ∈ comparePairs sc ham items) : t ∈ comparePairs sc ham' items := by
  obtain ⟨h1, h2, hsub, hsc, hd, ht⟩ := mem_comparePairs h
  have h' := comparePairs_mem_of hsub hsc (hd.trans hh)
  rw [← ht] at h'
  exact h'

/-- C8: for a fixed corpus, raising the Hamming threshold only enlarges
the emitted set of similar pairs; with no explicit threshold the level-1
result is contained in the level-2 result, which is contained in the
level-3 result. -/
theorem c8_threshold_monotonicity :
    (∀ (sc : FPath → FPath → Bool) (ham ham' : Int), ham ≤ ham' →
        ∀ (items : List (FPath × PHash)) t,
          t ∈ comparePairs sc ham items → t ∈ comparePairs sc ham' items)
    ∧ (∀ (sc : FPath → FPath → Bool) items t,
        t ∈ comparePairs sc (effectiveHam 1 none) items →
          t ∈ comparePairs sc (effectiveHam 2 none) items)
    ∧ (∀ (sc : FPath → FPath → Bool) items t,
        t ∈ comparePairs sc (effectiveHam 2 none) items →
          t ∈ comparePairs sc (effectiveHam 3 none) items) :=
  ⟨fun _ _ _ hh _ _ h => comparePairs_mono hh h,
   fun _ _ _ h => comparePairs_mono (by decide) h,
   fun _ _ _ h => comparePairs_mono (by decide) h⟩

theorem c8_threshold_monotonicity_witness :
    ("a", "b", similarity_score [true] [true] HASH_BITS) ∈
      comparePairs (fun _ _ => true) 5 [("a", [true]), ("b", [true])] :=
  c8_threshold_monotonicity.1 (fun _ _ => true) 0 5 (by decide)
    [("a", [true]), ("b", [true])] ("a", "b", similarity_score [true] [true] HASH_BITS)
    (List.mem_singleton.mpr rfl)

/-- C7: with fast-same-folder selected and no user filename-time window,
the CLI defaults the window to 1 second; under that window a candidate
pair whose two filename-parsed timestamps both exist and differ by more
than 1 second is filtered out and never emitted by the compare loop. -/
theorem c7_fast_default_window :
    cliTimeWindow true true none = some 1
    ∧ (∀ p1 p2 t1 t2, parse_datetime_from_filename (pathStem p1) = some t1 →
        parse_datetime_from_filename (pathStem p2) = some t2 →
        1 < |(dtToSecs t1 : Int) - (dtToSecs t2 : Int)| →
        _should_compare_by_time (cliTimeWindow true true none) p1 p2 = false
        ∧ ∀ (ham : Int) items s,
            (p1, p2, s) ∉ comparePairs (_should_compare_by_time (cliTimeWindow true true none)) ham items) := by
  refine ⟨rfl, fun p1 p2 t1 t2 ht1 ht2 hgap => ?_⟩
  have hsc : _should_compare_by_time (cliTimeWindow true true none) p1 p2 = false := by
    show _should_compare_by_time (some 1) p1 p2 = false
    unfold _should_compare_by_time
    rw [ht1, ht2]
    simp only [decide_eq_false_iff_not]
    exact not_le.mpr hgap
  refine ⟨hsc, fun ham items s hmem => ?_⟩
  obtain ⟨h1, h2, _, hsc', _, _⟩ := mem_comparePairs hmem
  rw [hsc] at hsc'
  exact Bool.false_ne_true hsc'

theorem c7_fast_default_window_witness :
    _should_compare_by_time (cliTimeWindow true true none)
        "IMG_20240101_120000.jpg" "IMG_20240101_120002.jpg" = false
    ∧ ("IMG_20240101_120000.jpg", "IMG_20240101_120002.jpg",
        similarity_score [true] [true] HASH_BITS) ∉
      comparePairs (_should_compare_by_time (cliTimeWindow true true none)) 256
        [("IMG_20240101_120000.jpg", [true]), ("IMG_20240101_120002.jpg", [true])] := by
  have h := c7_fast_default_window.2 "IMG_20240101_120000.jpg" "IMG_20240101_120002.jpg"
    ⟨2024, 1, 1, 12, 0, 0⟩ ⟨2024, 1, 1, 12, 0, 2⟩ (by decide) (by decide) (by decide)
  exact ⟨h.1, h.2 256 _ _⟩

theorem nodup_fst_unique {items : List (FPath × PHash)}
    (hnd : (items.map Prod.fst).Nodup) {a : FPath} {x y : PHash}
    (hx : (a, x) ∈ items) (hy : (a, y) ∈ items) : x = y := by
  induction items with
  | nil => exact absurd hx (List.not_mem_nil _)
  | cons q rest ih =>
    rw [List.map_cons, List.nodup_cons] at hnd
    rcases List.mem_cons.mp hx with hx1 | hx2 <;> rcases List.mem_cons.mp hy with hy1 | hy2
    · rw [← hx1] at hy1
      injection hy1 with _ h
      exact h.symm
    · rw [← hx1] at hnd
      exact absurd (List.mem_map_of_mem Prod.fst hy2) hnd.1
    · rw [← hy1] at hnd
      exact absurd (List.mem_map_of_mem Prod.fst hx2) hnd.1
    · exact ih hnd.2 hx2 hy2

theorem phashDist_self (h : PHash) : phashDist h h = 0 := by
  induction h with
  | nil => rfl
  | cons a t ih => simpa [phashDist, List.countP_cons] using ih

/-- C1: for a candidate pair actually compared (both entries hashed, the
pair reaching the compare loop and passing the window filter), the triple
`(path_a, path_b, max(0, 1 - d/256))` is emitted iff the Hamming distance
`d` is at most the effective threshold; distance 0 gives similarity
exactly 1, and identical hashes have distance 0. -/
theorem c1_pair_emission :
    (∀ (items : List (FPath × PHash)) (sc : FPath → FPath → Bool) (ham : Int)
        (p1 p2 : FPath) (h1 h2 : PHash),
        (items.map Prod.fst).Nodup →
        List.Sublist [(p1, h1), (p2, h2)] items →
        sc p1 p2 = true →
        ((p1, p2, similarity_score h1 h2 HASH_BITS) ∈ comparePairs sc ham items
          ↔ (phashDist h1 h2 : Int) ≤ ham))
    ∧ (∀ h1 h2 : PHash, phashDist h1 h2 = 0 → similarity_score h1 h2 HASH_BITS = 1)
    ∧ (∀ h : PHash, phashDist h h = 0) := by
  refine ⟨?_, ?_, phashDist_self⟩
  · intro items sc ham p1 p2 h1 h2 hnd hsub hsc
    constructor
    · intro hmem
      obtain ⟨h1', h2', hsub', hsc', hd', _⟩ := mem_comparePairs hmem
      have e1 : h1' = h1 :=
        nodup_fst_unique hnd (hsub'.mem (List.mem_cons_self _ _))
          (hsub.mem (List.mem_cons_self _ _))
      have e2 : h2' = h2 :=
        nodup_fst_unique hnd
          (hsub'.mem (List.mem_cons.mpr (Or.inr (List.mem_singleton_self _))))
          (hsub.mem (List.mem_cons.mpr (Or.inr (List.mem_singleton_self _))))
      rw [e1, e2] at hd'
      exact hd'
    · intro hd
      exact comparePairs_mem_of hsub hsc hd
  · intro h1 h2 h
    unfold similarity_score HASH_BITS
    rw [h]
    norm_num

theorem c1_pair_emission_witness :
    ("a", "b", similarity_score [true] [false] HASH_BITS) ∈
      comparePairs (fun _ _ => true) 5 [("a", [true]), ("b", [false])] :=
  (c1_pair_emission.1 [("a", [true]), ("b", [false])] (fun _ _ => true) 5
      "a" "b" [true] [false] (by decide) (by decide) rfl).mpr (by decide)

/-- C10: with fewer than two collected image files — in particular when
the root is not a directory — both entry points return the empty list
before hashing anything or invoking the progress callback. -/
theorem c10_too_few_files :
    (∀ fs phash level threshold tw, (_collect_image_paths fs).length < 2 →
        find_similar_pairs_with_scoresST fs phash level threshold tw = ([], [], [])
        ∧ find_similar_groups fs phash level threshold = [])
    ∧ (∀ fs : FSModel, fs.isDir = false → _collect_image_paths fs = []) := by
  constructor
  · intro fs phash level threshold tw h
    constructor
    · unfold find_similar_pairs_with_scoresST
      simp only [if_pos h]
    · unfold find_similar_groups
      simp only [if_pos h]
  · intro fs h
    unfold _collect_image_paths
    rw [h]
    rfl

theorem c10_too_few_files_witness :
    find_similar_pairs_with_scoresST ⟨true, ["a.jpg"]⟩ (fun _ => some [true]) 2 none none
        = ([], [], [])
    ∧ find_similar_groups ⟨true, ["a.jpg"]⟩ (fun _ => some [true]) 2 none = []
    ∧ _collect_image_paths ⟨false, ["a.jpg"]⟩ = [] := by
  have h := c10_too_few_files.1 ⟨true, ["a.jpg"]⟩ (fun _ => some [true]) 2 none none (by decide)
  exact ⟨h.1, h.2, c10_too_few_files.2 ⟨false, ["a.jpg"]⟩ rfl⟩

theorem takeDigits_eq (n : Nat) (cs : List Char) :
    takeDigits n cs =
      if n ≤ cs.length ∧ (cs.take n).all isDig then some (cs.take n, cs.drop n) else none := by
  induction n generalizing cs with
  | zero => simp [takeDigits]
  | succ n ih =>
    cases cs with
    | nil => simp [takeDigits]
    | cons c cs =>
      rw [takeDigits, ih]
      by_cases hd : isDig c
      · by_cases hc : n ≤ cs.length ∧ (cs.take n).all isDig
        · rw [if_pos hd, if_pos hc, if_pos]
          · simp [List.take_succ_cons, List.drop_succ_cons]
          · simpa [Nat.succ_le_succ_iff, hd] using hc
        · rw [if_pos hd, if_neg hc, if_neg]
          intro hc2
          exact hc (by simpa [Nat.succ_le_succ_iff, hd] using hc2)
      · rw [if_neg hd, if_neg]
        intro hc2
        simp [hd] at hc2

theorem matchDTHere_eq (cs : List Char) :
    matchDTHere cs =
      if dtMatchAt cs 0 then some (cs.take 8, (cs.drop 9).take 6) else none := by
  unfold matchDTHere
  rw [takeDigits_eq]
  by_cases h8 : 8 ≤ cs.length ∧ (cs.take 8).all isDig
  · rw [if_pos h8]
    cases hdrop : cs.drop 8 with
    | nil =>
      dsimp only
      rw [if_neg]
      intro hm
      unfold dtMatchAt at hm
      simp only [List.drop_drop, Bool.and_eq_true, decide_eq_true_eq] at hm
      have : cs.length ≤ 8 := by
        have := List.drop_eq_nil_iff.mp hdrop
        omega
      omega
    | cons c rest2 =>
      dsimp only
      by_cases hu : c = '_'
      · rw [if_pos hu, takeDigits_eq]
        by_cases h6 : 6 ≤ rest2.length ∧ (rest2.take 6).all isDig
        · rw [if_pos h6, if_pos]
          · have hrest2 : rest2 = cs.drop 9 := by
              have : cs.drop 9 = (cs.drop 8).drop 1 := by rw [List.drop_drop]
              rw [this, hdrop]
              rfl
            rw [hrest2]
          · unfold dtMatchAt
            have hlen : cs.drop 8 ≠ [] := by rw [hdrop]; simp
            have h9 : rest2 = cs.drop 9 := by
              have : cs.drop 9 = (cs.drop 8).drop 1 := by rw [List.drop_drop]
              rw [this, hdrop]
              rfl
            have hdl : (cs.drop 8).length = cs.length - 8 := by simp
            rw [hdrop] at hdl
            simp only [List.length_cons] at hdl
            have hlen15 : 0 + 15 ≤ cs.length := by
              have := h6.1
              rw [h9] at this
              simp at this
              omega
            simp only [Nat.zero_add, List.drop_zero, Bool.and_eq_true, decide_eq_true_eq]
            refine ⟨⟨⟨by omega, h8.2⟩, ?_⟩, by rw [← h9]; exact h6.2⟩
            rw [hdrop, hu]
            rfl
        · rw [if_neg h6, if_neg]
          intro hm
          unfold dtMatchAt at hm
          simp only [Nat.zero_add, List.drop_zero, Bool.and_eq_true, decide_eq_true_eq] at hm
          have h9 : rest2 = cs.drop 9 := by
            have : cs.drop 9 = (cs.drop 8).drop 1 := by rw [List.drop_drop]
            rw [this, hdrop]
            rfl
          refine h6 ⟨?_, by rw [h9]; exact hm.2⟩
          rw [h9]
          simp
          omega
      · rw [if_neg hu, if_neg]
        intro hm
        unfold dtMatchAt at hm
        simp only [Nat.zero_add, List.drop_zero, Bool.and_eq_true, decide_eq_true_eq] at hm
        have := hm.1.2
        rw [hdrop] at this
        simp at this
        exact hu this
  · rw [if_neg h8, if_neg]
    intro hm
    unfold dtMatchAt at hm
    simp only [Nat.zero_add, List.drop_zero, Bool.and_eq_true, decide_eq_true_eq] at hm
    exact h8 ⟨by omega, hm.1.1.2⟩

theorem matchD8Here_eq (cs : List Char) :
    matchD8Here cs = if d8MatchAt cs 0 then some (cs.take 8) else none := by
  unfold matchD8Here
  rw [takeDigits_eq]
  by_cases h8 : 8 ≤ cs.length ∧ (cs.take 8).all isDig
  · rw [if_pos h8]
    dsimp only
    rw [if_pos]
    unfold d8MatchAt
    simp only [Nat.zero_add, List.drop_zero, Bool.and_eq_true, decide_eq_true_eq]
    exact ⟨h8.1, h8.2⟩
  · rw [if_neg h8, if_neg]
    intro hm
    unfold d8MatchAt at hm
    simp only [Nat.zero_add, List.drop_zero, Bool.and_eq_true, decide_eq_true_eq] at hm
    exact h8 ⟨hm.1, hm.2⟩

theorem dtMatchAt_cons (c : Char) (cs : List Char) (i : Nat) :
    dtMatchAt (c :: cs) (i + 1) = dtMatchAt cs i := by
  unfold dtMatchAt
  rw [List.length_cons, List.drop_succ_cons,
    show i + 1 + 8 = (i + 8) + 1 by omega, List.drop_succ_cons,
    show i + 1 + 9 = (i + 9) + 1 by omega, List.drop_succ_cons,
    show decide (i + 1 + 15 ≤ cs.length + 1) = decide (i + 15 ≤ cs.length) from
      by rw [decide_eq_decide]; omega]

theorem d8MatchAt_cons (c : Char) (cs : List Char) (i : Nat) :
    d8MatchAt (c :: cs) (i + 1) = d8MatchAt cs i := by
  unfold d8MatchAt
  rw [List.length_cons, List.drop_succ_cons,
    show decide (i + 1 + 8 ≤ cs.length + 1) = decide (i + 8 ≤ cs.length) from
      by rw [decide_eq_decide]; omega]

theorem find?_shift (p : Nat → Bool) (n : Nat) :
    (List.range (n + 1)).find? p =
      if p 0 then some 0 else ((List.range n).find? (fun i => p (i + 1))).map (· + 1) := by
  rw [List.range_succ_eq_map, List.find?_cons]
  by_cases h0 : p 0
  · rw [h0, if_pos rfl]
  · rw [Bool.not_eq_true] at h0
    rw [h0, if_neg (by simp [h0]), List.find?_map]
    rfl

theorem searchDT_eq (cs : List Char) :
    searchDT cs = ((List.range (cs.length + 1)).find? (fun i => dtMatchAt cs i)).map
      (fun i => ((cs.drop i).take 8, (cs.drop (i + 9)).take 6)) := by
  induction cs with
  | nil => rfl
  | cons c cs ih =>
    show (match matchDTHere (c :: cs) with
      | some r => some r
      | none => searchDT cs) = _
    rw [List.length_cons, find?_shift, matchDTHere_eq]
    by_cases h0 : dtMatchAt (c :: cs) 0
    · rw [if_pos h0, if_pos h0]
      rfl
    · rw [if_neg h0, if_neg h0]
      dsimp only
      rw [ih, funext (dtMatchAt_cons c cs), Option.map_map]
      have hfn : ((fun i => (((c :: cs).drop i).take 8, ((c :: cs).drop (i + 9)).take 6))
            ∘ (· + 1)) =
          (fun i => ((cs.drop i).take 8, (cs.drop (i + 9)).take 6)) := by
        funext i
        show (((c :: cs).drop (i + 1)).take 8, ((c :: cs).drop (i + 1 + 9)).take 6) = _
        rw [List.drop_succ_cons, show i + 1 + 9 = (i + 9) + 1 by omega, List.drop_succ_cons]
      rw [hfn]

theorem searchD8_eq (cs : List Char) :
    searchD8 cs = ((List.range (cs.length + 1)).find? (fun i => d8MatchAt cs i)).map
      (fun i => (cs.drop i).take 8) := by
  induction cs with
  | nil => rfl
  | cons c cs ih =>
    show (match matchD8Here (c :: cs) with
      | some r => some r
      | none => searchD8 cs) = _
    rw [List.length_cons, find?_shift, matchD8Here_eq]
    by_cases h0 : d8MatchAt (c :: cs) 0
    · rw [if_pos h0, if_pos h0]
      rfl
    · rw [if_neg h0, if_neg h0]
      dsimp only
      rw [ih, funext (d8MatchAt_cons c cs), Option.map_map]
      have hfn : ((fun i => ((c :: cs).drop i).take 8) ∘ (· + 1)) =
          (fun i => (cs.drop i).take 8) := by
        funext i
        show ((c :: cs).drop (i + 1)).take 8 = _
        rw [List.drop_succ_cons]
      rw [hfn]

theorem dateFallback_eq_spec (cs : List Char) : dateFallback cs = dateFallbackSpec cs := by
  unfold dateFallback dateFallbackSpec
  rw [searchD8_eq]
  cases hd8 : (List.range (cs.length + 1)).find? (fun i => d8MatchAt cs i) with
  | none => rfl
  | some i => rfl

theorem parse_eq_spec (stem : String) :
    parse_datetime_from_filename stem = parseFilenameSpec stem := by
  simp only [parse_datetime_from_filename, parseFilenameSpec]
  rw [searchDT_eq, dateFallback_eq_spec]
  cases hdt : (List.range (stem.toList.length + 1)).find? (fun i => dtMatchAt stem.toList i) with
  | none => rfl
  | some i => rfl

theorem dateFallback_valid {cs : List Char} {t : PyDT}
    (h : dateFallback cs = some t) : validDT t = true := by
  unfold dateFallback at h
  cases hd8 : searchD8 cs with
  | none =>
    rw [hd8] at h
    exact absurd h (by simp)
  | some d8 =>
    rw [hd8] at h
    dsimp only at h
    by_cases hv : validDT (fieldsOf d8 ['0', '0', '0', '0', '0', '0']) = true
    · rw [if_pos hv] at h
      injection h with h2
      rw [← h2]
      exact hv
    · rw [if_neg hv] at h
      exact absurd h (by simp)

theorem parse_valid {stem : String} {t : PyDT}
    (h : parse_datetime_from_filename stem = some t) : validDT t = true := by
  simp only [parse_datetime_from_filename] at h
  cases hdt : searchDT stem.toList with
  | none =>
    rw [hdt] at h
    exact dateFallback_valid h
  | some r =>
    obtain ⟨d8, t6⟩ := r
    rw [hdt] at h
    dsimp only at h
    by_cases hv : validDT (fieldsOf d8 t6) = true
    · rw [if_pos hv] at h
      injection h with h2
      rw [← h2]
      exact hv
    · rw [if_neg hv] at h
      exact dateFallback_valid h

/-- C9: the filename-time parser equals its declarative reading — try the
leftmost `(\d{8})_(\d{6})` match and validate its calendar fields; on a
miss (including invalid fields such as month 13) try the leftmost
`(\d{8})` match with time 00:00:00; return none when no pattern yields
valid fields — and every returned timestamp has valid fields.  The
embedding is a pure function of the stem. -/
theorem c9_filename_time_parse :
    (∀ stem, parse_datetime_from_filename stem = parseFilenameSpec stem)
    ∧ (∀ stem t, parse_datetime_from_filename stem = some t → validDT t = true) :=
  ⟨parse_eq_spec, fun _ _ h => parse_valid h⟩

theorem c9_filename_time_parse_witness :
    parse_datetime_from_filename "IMG_20240101_120000" = parseFilenameSpec "IMG_20240101_120000"
    ∧ validDT ⟨2022, 1, 15, 0, 0, 0⟩ = true :=
  ⟨c9_filename_time_parse.1 "IMG_20240101_120000",
   c9_filename_time_parse.2 "a20220115b" ⟨2022, 1, 15, 0, 0, 0⟩ (by decide)⟩

theorem delKeyLe_refl (exif : FPath → Option Nat) (p : FPath) : delKeyLe exif p p :=
  Or.inr ⟨rfl, le_refl _⟩

theorem delKeyLe_total (exif : FPath → Option Nat) :
    ∀ p q, delKeyLe exif p q ∨ delKeyLe exif q p := by
  intro p q
  unfold delKeyLe
  omega

theorem delKeyLe_trans (exif : FPath → Option Nat) :
    ∀ p q r, delKeyLe exif p q → delKeyLe exif q r → delKeyLe exif p r := by
  intro p q r
  unfold delKeyLe
  omega

theorem sorted_getLast_max {α : Type} {r : α → α → Prop} (hrefl : ∀ a, r a a)
    {l : List α} (hs : List.Sorted r l) (hne : l ≠ []) :
    ∀ x ∈ l, r x (l.getLast hne) := by
  induction l with
  | nil => exact absurd rfl hne
  | cons a t ih =>
    intro x hx
    cases t with
    | nil =>
      rcases List.mem_singleton.mp hx with rfl
      exact hrefl x
    | cons b t2 =>
      rw [List.getLast_cons (by simp)]
      have hsc := List.sorted_cons.mp hs
      rcases List.mem_cons.mp hx with rfl | hx2
      · exact hsc.1 _ (List.getLast_mem _)
      · exact ih hsc.2 (by simp) x hx2

theorem sorted_head_min {α : Type} {r : α → α → Prop} (hrefl : ∀ a, r a a)
    {a : α} {t : List α} (hs : List.Sorted r (a :: t)) :
    ∀ x ∈ a :: t, r a x := by
  intro x hx
  rcases List.mem_cons.mp hx with rfl | hx2
  · exact hrefl x
  · exact (List.sorted_cons.mp hs).1 x hx2

/-- C4 counterexample: the deletion selector does not sort by the
three-part key `(has_exif, exif_time_or_min, path)` the claim states.
On the cluster `["b", "a"]` with no EXIF anywhere, the code's stable sort
keeps the input order, keeps `"a"` and deletes `["b"]`, whereas sorting
with the path in the key would keep `"b"` and delete `["a"]`. -/
theorem c4_keep_policy_counterexample :
    get_files_to_delete_from_groups (fun _ => none) [["b", "a"]] "newer" = ["b"]
    ∧ getFilesToDeleteSpec (fun _ => none) [["b", "a"]] "newer" = ["a"]
    ∧ get_files_to_delete_from_groups (fun _ => none) [["b", "a"]] "newer"
        ≠ getFilesToDeleteSpec (fun _ => none) [["b", "a"]] "newer" := by
  refine ⟨rfl, rfl, by decide⟩

/-- C4 amended: the selector sorts each cluster by the two-part key
`(has_exif, exif_time_or_min)` with a stable sort (ties keep the
cluster's own order; the path is not part of the key), keeps the last
element of the sorted order for `keep == "newer"` and the first
otherwise, and deletes all other members, cluster by cluster; members
without EXIF sort first (missing EXIF treated as oldest).  The embedding
is pure — no filesystem mutation exists in the model. -/
theorem c4_keep_policy :
    (∀ exif groups keep,
        get_files_to_delete_from_groups exif groups keep
          = groups.flatMap (fun g =>
              match keepOfGroup exif keep g with
              | none => []
              | some kp => g.filter (fun p => p ≠ kp)))
    ∧ (∀ exif keep (g : List FPath), g ≠ [] →
        ∃ kp, keepOfGroup exif keep g = some kp ∧ kp ∈ g
          ∧ (keep = "newer" → ∀ q ∈ g, delKeyLe exif q kp)
          ∧ (keep ≠ "newer" → ∀ q ∈ g, delKeyLe exif kp q))
    ∧ (∀ exif p q, exif p = none → delKeyLe exif p q) := by
  refine ⟨fun _ _ _ => rfl, ?_, ?_⟩
  · intro exif keep g hne
    haveI : IsTotal FPath (delKeyLe exif) := ⟨delKeyLe_total exif⟩
    haveI : IsTrans FPath (delKeyLe exif) := ⟨delKeyLe_trans exif⟩
    have hperm := List.perm_insertionSort (delKeyLe exif) g
    have hsort := List.sorted_insertionSort (delKeyLe exif) g
    have hne2 : List.insertionSort (delKeyLe exif) g ≠ [] := by
      intro h0
      rw [h0] at hperm
      exact hne (List.Perm.nil_eq hperm).symm
    by_cases hk : keep = "newer"
    · refine ⟨(List.insertionSort (delKeyLe exif) g).getLast hne2, ?_, ?_, ?_, ?_⟩
      · unfold keepOfGroup
        rw [if_pos hk, List.getLast?_eq_getLast _ hne2]
      · exact hperm.mem_iff.mp (List.getLast_mem hne2)
      · intro _ q hq
        exact sorted_getLast_max (delKeyLe_refl exif) hsort hne2 q (hperm.mem_iff.mpr hq)
      · intro hk2
        exact absurd hk hk2
    · cases hsg : List.insertionSort (delKeyLe exif) g with
      | nil => exact absurd hsg hne2
      | cons a t =>
        refine ⟨a, ?_, ?_, ?_, ?_⟩
        · unfold keepOfGroup
          rw [if_neg hk, hsg]
          rfl
        · exact hperm.mem_iff.mp (by rw [hsg]; exact List.mem_cons_self a t)
        · intro hk2
          exact absurd hk2 hk
        · intro _ q hq
          rw [hsg] at hsort
          exact sorted_head_min (delKeyLe_refl exif) hsort q
            (by rw [← hsg]; exact hperm.mem_iff.mpr hq)
  · intro exif p q hp
    unfold delKeyLe delKey
    rw [hp]
    cases hq : exif q with
    | none => exact Or.inr ⟨rfl, le_refl _⟩
    | some v =>
      dsimp only
      exact Or.inl Nat.zero_lt_one

theorem c4_keep_policy_witness :
    ∃ kp, keepOfGroup (fun _ => none) "newer" ["b", "a"] = some kp ∧ kp ∈ ["b", "a"]
      ∧ ("newer" = "newer" → ∀ q ∈ ["b", "a"], delKeyLe (fun _ => none) q kp)
      ∧ ("newer" ≠ "newer" → ∀ q ∈ ["b", "a"], delKeyLe (fun _ => none) kp q) :=
  c4_keep_policy.2.1 (fun _ => none) "newer" ["b", "a"] (by decide)

theorem strLeB_refl : ∀ as, strLeB as as = true := by
  intro as
  induction as with
  | nil => rfl
  | cons a t ih =>
    unfold strLeB
    rw [if_neg (lt_irrefl _), if_pos rfl]
    exact ih

theorem strLeB_total : ∀ as bs, strLeB as bs = true ∨ strLeB bs as = true := by
  intro as
  induction as with
  | nil => intro bs; left; rfl
  | cons a t ih =>
    intro bs
    cases bs with
    | nil => right; rfl
    | cons b u =>
      unfold strLeB
      rcases Nat.lt_trichotomy a.toNat b.toNat with h | h | h
      · left
        rw [if_pos h]
      · rw [if_neg (by omega), if_pos h, if_neg (by omega), if_pos h.symm]
        exact ih u
      · right
        rw [if_pos h]

theorem strLeB_trans : ∀ as bs cs, strLeB as bs = true → strLeB bs cs = true →
    strLeB as cs = true := by
  intro as
  induction as with
  | nil => intro bs cs _ _; rfl
  | cons a t ih =>
    intro bs cs hab hbc
    cases bs with
    | nil => exact absurd hab (by simp [strLeB])
    | cons b u =>
      cases cs with
      | nil => exact absurd hbc (by simp [strLeB])
      | cons c v =>
        unfold strLeB at hab hbc ⊢
        split_ifs at hab hbc ⊢ <;> first
          | rfl
          | omega
          | exact ih u v hab hbc

theorem pathLe_refl (p : FPath) : pathLe p p := strLeB_refl _

theorem pathLe_total (p q : FPath) : pathLe p q ∨ pathLe q p := strLeB_total _ _

theorem pathLe_trans {p q r : FPath} (h1 : pathLe p q) (h2 : pathLe q r) : pathLe p r :=
  strLeB_trans _ _ _ h1 h2

theorem exifLe_total (exif : FPath → Option Nat) : ∀ p q, exifLe exif p q ∨ exifLe exif q p := by
  intro p q
  unfold exifLe
  rcases Nat.lt_trichotomy (exifKey exif p).1 (exifKey exif q).1 with h | h | h
  · exact Or.inl (Or.inl h)
  · rcases Nat.lt_trichotomy (exifKey exif p).2.1 (exifKey exif q).2.1 with h2 | h2 | h2
    · exact Or.inl (Or.inr ⟨h, Or.inl h2⟩)
    · rcases pathLe_total (exifKey exif p).2.2 (exifKey exif q).2.2 with h3 | h3
      · exact Or.inl (Or.inr ⟨h, Or.inr ⟨h2, h3⟩⟩)
      · exact Or.inr (Or.inr ⟨h.symm, Or.inr ⟨h2.symm, h3⟩⟩)
    · exact Or.inr (Or.inr ⟨h.symm, Or.inl h2⟩)
  · exact Or.inr (Or.inl h)

theorem exifLe_trans (exif : FPath → Option Nat) :
    ∀ p q r, exifLe exif p q → exifLe exif q r → exifLe exif p r := by
  intro p q r h1 h2
  unfold exifLe at h1 h2 ⊢
  rcases h1 with h1 | ⟨e1, h1⟩
  · rcases h2 with h2 | ⟨e2, _⟩
    · exact Or.inl (by omega)
    · exact Or.inl (by omega)
  · rcases h2 with h2 | ⟨e2, h2⟩
    · exact Or.inl (by omega)
    · rcases h1 with h1 | ⟨f1, h1⟩
      · rcases h2 with h2 | ⟨f2, _⟩
        · exact Or.inr ⟨by omega, Or.inl (by omega)⟩
        · exact Or.inr ⟨by omega, Or.inl (by omega)⟩
      · rcases h2 with h2 | ⟨f2, h2⟩
        · exact Or.inr ⟨by omega, Or.inl (by omega)⟩
        · exact Or.inr ⟨by omega, Or.inr ⟨by omega, pathLe_trans h1 h2⟩⟩

theorem exifKey_fst_of_some {exif : FPath → Option Nat} {p : FPath} {t : Nat}
    (h : exif p = some t) : (exifKey exif p).1 = 0 := by
  unfold exifKey
  rw [h]

theorem exifKey_fst_of_none {exif : FPath → Option Nat} {p : FPath}
    (h : exif p = none) : (exifKey exif p).1 = 1 := by
  unfold exifKey
  rw [h]

theorem exifLe_isSome {exif : FPath → Option Nat} {p q : FPath}
    (h : exifLe exif p q) (hq : (exif q).isSome = true) : (exif p).isSome = true := by
  obtain ⟨tq, htq⟩ := Option.isSome_iff_exists.mp hq
  cases hp : exif p with
  | some tp => rfl
  | none =>
    exfalso
    unfold exifLe at h
    rw [exifKey_fst_of_none hp, exifKey_fst_of_some htq] at h
    omega

theorem exifLe_time {exif : FPath → Option Nat} {p q : FPath} {tp tq : Nat}
    (hp : exif p = some tp) (hq : exif q = some tq) (h : exifLe exif p q) : tp ≤ tq := by
  unfold exifLe at h
  unfold exifKey at h
  rw [hp, hq] at h
  dsimp only at h
  omega

theorem filter_split {α : Type} {P : α → Bool} :
    ∀ {l : List α}, List.Pairwise (fun a b => P b = true → P a = true) l →
      l = l.filter P ++ l.filter (fun a => !(P a)) := by
  intro l
  induction l with
  | nil => intro _; rfl
  | cons a t ih =>
    intro hp
    rw [List.pairwise_cons] at hp
    cases hPa : P a with
    | true =>
      rw [List.filter_cons_of_pos hPa, List.filter_cons_of_neg (by simp [hPa])]
      exact congrArg (a :: ·) (ih hp.2)
    | false =>
      have ht : ∀ b ∈ t, P b = false := by
        intro b hb
        cases hPb : P b with
        | false => rfl
        | true => exact absurd (hp.1 b hb hPb) (by simp [hPa])
      rw [List.filter_cons_of_neg (by simp [hPa]), List.filter_cons_of_pos (by simp [hPa])]
      have h1 : t.filter P = [] := by
        rw [List.filter_eq_nil_iff]
        intro b hb
        simp [ht b hb]
      have h2 : t.filter (fun a => !(P a)) = t := by
        rw [List.filter_eq_self]
        intro b hb
        simp [ht b hb]
      rw [h1, h2]
      rfl

theorem mem_takeWhile_mono {l : List FPath} {q : FPath} {cond : FPath → Bool}
    {tOf : FPath → Nat}
    (hmono : List.Pairwise (fun a b => tOf a ≤ tOf b) l)
    (hcond : ∀ a b, tOf a ≤ tOf b → cond b = true → cond a = true)
    (hq : q ∈ l) (hcq : cond q = true) : q ∈ l.takeWhile cond := by
  induction l with
  | nil => exact absurd hq (List.not_mem_nil q)
  | cons r rest ih =>
    rw [List.pairwise_cons] at hmono
    rcases List.mem_cons.mp hq with rfl | hq2
    · rw [List.takeWhile_cons_of_pos hcq]
      exact List.mem_cons_self _ _
    · have hcr : cond r = true := hcond r q (hmono.1 q hq2) hcq
      rw [List.takeWhile_cons_of_pos hcr]
      exact List.mem_cons.mpr (Or.inr (ih hmono.2 hq2))

theorem mem_allClosePairs {sizeOf : FPath → Nat} {l : List FPath} {p q : FPath} :
    (p, q) ∈ allClosePairs sizeOf l ↔
      List.Sublist [p, q] l ∧ _size_close sizeOf p q = true := by
  induction l with
  | nil =>
    simp only [allClosePairs]
    constructor
    · intro h
      exact absurd h (List.not_mem_nil _)
    · intro ⟨h, _⟩
      cases h
  | cons r rest ih =>
    constructor
    · intro h
      rcases List.mem_append.mp h with hl | hr
      · obtain ⟨w, hw, hval⟩ := List.mem_map.mp hl
        obtain ⟨hwm, hwc⟩ := List.mem_filter.mp hw
        injection hval with hv1 hv2
        subst hv1
        subst hv2
        exact ⟨List.Sublist.cons₂ _ (List.singleton_sublist.mpr hwm), hwc⟩
      · obtain ⟨hsub, hc⟩ := ih.mp hr
        exact ⟨hsub.cons _, hc⟩
    · intro ⟨hsub, hc⟩
      cases hsub with
      | cons _ hs =>
        exact List.mem_append_right _ (ih.mpr ⟨hs, hc⟩)
      | cons₂ _ hs =>
        refine List.mem_append_left _ (List.mem_map.mpr ⟨q, ?_, rfl⟩)
        exact List.mem_filter.mpr ⟨List.singleton_sublist.mp hs, hc⟩

theorem mem_slideWindow {exif : FPath → Option Nat} {sizeOf : FPath → Nat} {W : Int}
    {l : List FPath} {p q : FPath}
    (hmono : List.Pairwise (fun a b => exifTimeOf exif a ≤ exifTimeOf exif b) l) :
    (p, q) ∈ slideWindow exif sizeOf W l ↔
      List.Sublist [p, q] l
        ∧ (exifTimeOf exif q : Int) - (exifTimeOf exif p : Int) ≤ W
        ∧ _size_close sizeOf p q = true := by
  induction l with
  | nil =>
    simp only [slideWindow]
    constructor
    · intro h
      exact absurd h (List.not_mem_nil _)
    · intro ⟨h, _⟩
      cases h
  | cons r rest ih =>
    rw [List.pairwise_cons] at hmono
    constructor
    · intro h
      rcases List.mem_append.mp h with hl | hr
      · obtain ⟨w, hw, hval⟩ := List.mem_map.mp hl
        obtain ⟨hwm, hwc⟩ := List.mem_filter.mp hw
        injection hval with hv1 hv2
        subst hv1
        subst hv2
        have hqr := (List.takeWhile_sublist _).mem hwm
        have hpred := List.mem_takeWhile_imp hwm
        rw [decide_eq_true_iff] at hpred
        exact ⟨List.Sublist.cons₂ _ (List.singleton_sublist.mpr hqr), hpred, hwc⟩
      · obtain ⟨hsub, hWle, hc⟩ := (ih hmono.2).mp hr
        exact ⟨hsub.cons _, hWle, hc⟩
    · intro ⟨hsub, hWle, hc⟩
      cases hsub with
      | cons _ hs =>
        exact List.mem_append_right _ ((ih hmono.2).mpr ⟨hs, hWle, hc⟩)
      | cons₂ _ hs =>
        refine List.mem_append_left _ (List.mem_map.mpr ⟨q, ?_, rfl⟩)
        refine List.mem_filter.mpr ⟨?_, hc⟩
        refine mem_takeWhile_mono hmono.2 ?_ (List.singleton_sublist.mp hs)
          (by rw [decide_eq_true_iff]; exact hWle)
        intro a b hab hcb
        rw [decide_eq_true_iff] at hcb ⊢
        have : (exifTimeOf exif a : Int) ≤ (exifTimeOf exif b : Int) := by exact_mod_cast hab
        omega

/-- C2: the EXIF-window enumerator.  The sort is a permutation of the
folder group placing EXIF-bearing entries (in time order) before no-EXIF
entries; a pair is emitted iff it is an ordered pair of the EXIF-bearing
part within the time window, or an ordered pair of the no-EXIF part — in
both cases subject to the 5% size tolerance, which never filters when
either size is unknown (0). -/
theorem c2_exif_window_enumerator (exif : FPath → Option Nat) (sizeOf : FPath → Nat)
    (group : List FPath) (W : Int) (hW : 0 < W) :
    (List.insertionSort (exifLe exif) group).Perm group
    ∧ List.insertionSort (exifLe exif) group
        = (List.insertionSort (exifLe exif) group).filter (fun p => (exif p).isSome)
          ++ (List.insertionSort (exifLe exif) group).filter (fun p => (exif p).isNone)
    ∧ List.Pairwise (fun a b => exifTimeOf exif a ≤ exifTimeOf exif b)
        ((List.insertionSort (exifLe exif) group).filter (fun p => (exif p).isSome))
    ∧ (∀ p q, (p, q) ∈ _exif_sorted_candidate_pairs exif sizeOf group W ↔
        ((List.Sublist [p, q]
              ((List.insertionSort (exifLe exif) group).filter (fun p => (exif p).isSome))
            ∧ (exifTimeOf exif q : Int) - (exifTimeOf exif p : Int) ≤ W
            ∧ _size_close sizeOf p q = true)
          ∨ (List.Sublist [p, q]
              ((List.insertionSort (exifLe exif) group).filter (fun p => (exif p).isNone))
            ∧ _size_close sizeOf p q = true)))
    ∧ (∀ p q, (sizeOf p = 0 ∨ sizeOf q = 0) → _size_close sizeOf p q = true)
    ∧ (∀ p q, sizeOf p ≠ 0 → sizeOf q ≠ 0 →
        (_size_close sizeOf p q = true ↔
          |(sizeOf p : ℚ) - (sizeOf q : ℚ)| ≤ (min (sizeOf p) (sizeOf q) : ℚ) * (5 / 100))) := by
  haveI : IsTotal FPath (exifLe exif) := ⟨exifLe_total exif⟩
  haveI : IsTrans FPath (exifLe exif) := ⟨exifLe_trans exif⟩
  have hperm := List.perm_insertionSort (exifLe exif) group
  have hsort := List.sorted_insertionSort (exifLe exif) group
  have hnone : (fun p => (exif p).isNone) = (fun p => !(exif p).isSome) := by
    funext p
    cases exif p <;> rfl
  have hsplit : List.insertionSort (exifLe exif) group
      = (List.insertionSort (exifLe exif) group).filter (fun p => (exif p).isSome)
        ++ (List.insertionSort (exifLe exif) group).filter (fun p => (exif p).isNone) := by
    rw [hnone]
    exact filter_split (List.Pairwise.imp (fun h hq => exifLe_isSome h hq) hsort)
  have hmonoP : List.Pairwise (fun a b => exifTimeOf exif a ≤ exifTimeOf exif b)
      ((List.insertionSort (exifLe exif) group).filter (fun p => (exif p).isSome)) := by
    refine List.Pairwise.imp_of_mem ?_ (hsort.filter _)
    intro a b ha hb hab
    obtain ⟨ta, hta⟩ := Option.isSome_iff_exists.mp (List.mem_filter.mp ha).2
    obtain ⟨tb, htb⟩ := Option.isSome_iff_exists.mp (List.mem_filter.mp hb).2
    have := exifLe_time hta htb hab
    unfold exifTimeOf
    rw [hta, htb]
    exact this
  refine ⟨hperm, hsplit, hmonoP, ?_, ?_, ?_⟩
  · intro p q
    unfold _exif_sorted_candidate_pairs
    by_cases hlen : group.length < 2
    · rw [if_pos (Or.inr hlen)]
      constructor
      · intro h
        exact absurd h (List.not_mem_nil _)
      · intro h
        exfalso
        have hlen2 : ∀ P : FPath → Bool, List.Sublist [p, q]
            ((List.insertionSort (exifLe exif) group).filter P) → False := by
          intro P hsub
          have h1 := hsub.length_le
          have h2 := List.length_filter_le P (List.insertionSort (exifLe exif) group)
          have h3 := hperm.length_eq
          simp only [List.length_cons, List.length_singleton] at h1
          omega
        rcases h with ⟨hsub, _, _⟩ | ⟨hsub, _⟩
        · exact hlen2 _ hsub
        · exact hlen2 _ hsub
    · rw [if_neg (by
        intro h
        rcases h with h | h
        · omega
        · exact hlen h)]
      dsimp only
      rw [List.mem_append]
      exact or_congr (mem_slideWindow hmonoP) mem_allClosePairs
  · intro p q h
    unfold _size_close
    rw [if_pos h]
  · intro p q h1 h2
    unfold _size_close
    rw [if_neg (by
      intro h
      rcases h with h | h
      · exact h1 h
      · exact h2 h)]
    exact decide_eq_true_iff

theorem c2_exif_window_enumerator_witness :
    (List.insertionSort (exifLe (fun _ => none)) ["b", "a"]).Perm ["b", "a"]
    ∧ _size_close (fun _ => 0) "a" "b" = true :=
  ⟨(c2_exif_window_enumerator (fun _ => none) (fun _ => 0) ["b", "a"] 5 (by decide)).1,
   (c2_exif_window_enumerator (fun _ => none) (fun _ => 0) ["b", "a"] 5 (by decide)).2.2.2.2.1
     "a" "b" (Or.inl rfl)⟩

theorem rootedAt_unique {f : FPath → FPath} {x r r' : FPath}
    (h1 : RootedAt f x r) (h2 : RootedAt f x r') : r = r' := by
  obtain ⟨n, hn, hr⟩ := h1
  obtain ⟨m, hm, hr'⟩ := h2
  have key : ∀ (a b : Nat) (ra rb : FPath), a ≤ b → f^[a] x = ra → f ra = ra →
      f^[b] x = rb → ra = rb := by
    intro a b ra rb hab ha hra hb
    have : f^[b] x = f^[b - a] (f^[a] x) := by
      rw [← Function.iterate_add_apply]
      congr 1
      omega
    rw [this, ha, Function.iterate_fixed hra] at hb
    exact hb
  rcases le_total n m with h | h
  · exact key n m r r' h hn hr hm
  · exact (key m n r' r h hm hr' hn).symm

theorem rootedAt_step {f : FPath → FPath} {x r : FPath}
    (h : RootedAt f (f x) r) : RootedAt f x r := by
  obtain ⟨n, hn, hr⟩ := h
  exact ⟨n + 1, by rw [Function.iterate_succ_apply]; exact hn, hr⟩

theorem rootedAt_of_step {f : FPath → FPath} {x r : FPath}
    (hx : f x ≠ x) (h : RootedAt f x r) : RootedAt f (f x) r := by
  obtain ⟨n, hn, hr⟩ := h
  cases n with
  | zero =>
    exfalso
    rw [Function.iterate_zero_apply] at hn
    rw [hn] at hx
    exact hx hr
  | succ m =>
    rw [Function.iterate_succ_apply] at hn
    exact ⟨m, hn, hr⟩

theorem rootedAt_root {f : FPath → FPath} {x r : FPath} (h : RootedAt f x r) : f r = r :=
  h.choose_spec.2

theorem rooted_steps_le {s : UFState} (hinv : UFInv s) (x : FPath) :
    ∃ n ≤ s.keys.length, s.f ((s.f)^[n] x) = (s.f)^[n] x := by
  obtain ⟨r, n, hn, hr⟩ := hinv.2.2.2 x
  have hex : ∃ m, s.f ((s.f)^[m] x) = (s.f)^[m] x := ⟨n, by rw [hn]; exact hr⟩
  classical
  let N := Nat.find hex
  have hNroot : s.f ((s.f)^[N] x) = (s.f)^[N] x := Nat.find_spec hex
  have hNmin : ∀ i < N, s.f ((s.f)^[i] x) ≠ (s.f)^[i] x := fun i hi => Nat.find_min hex hi
  refine ⟨N, ?_, hNroot⟩
  by_contra hgt
  push_neg at hgt
  -- the chain x, f x, ..., f^[N-1] x is injective and lands in keys
  have hinj : ∀ i j, i < j → j < N → (s.f)^[i] x ≠ (s.f)^[j] x := by
    intro i j hij hjN heq
    have hper : ∀ m, i ≤ m → (s.f)^[m] x = (s.f)^[m + (j - i)] x := by
      intro m him
      have : (s.f)^[m] x = (s.f)^[m - i] ((s.f)^[i] x) := by
        rw [← Function.iterate_add_apply]
        congr 1
        omega
      rw [this, heq, ← Function.iterate_add_apply]
      congr 1
      omega
    have hNi : i ≤ N - (j - i) := by omega
    have := hper (N - (j - i)) hNi
    rw [show N - (j - i) + (j - i) = N by omega] at this
    exact hNmin (N - (j - i)) (by omega) (by rw [this]; exact hNroot)
  have hmem : ∀ i, 0 < i → i < N → (s.f)^[i] x ∈ s.keys := by
    intro i hi hiN
    rcases hinv.2.2.1 ((s.f)^[i - 1] x) with h | h
    · exact absurd h (hNmin (i - 1) (by omega))
    · have h2 : (s.f)^[i] x = (s.f)^[(i - 1) + 1] x := by
        congr 1
        omega
      rw [h2, Function.iterate_succ_apply']
      exact h
  have hx0 : x ∈ s.keys := by
    by_contra hx0
    exact hNmin 0 (by omega) (hinv.2.1 x hx0)
  have hchain : (List.range N).map (fun i => (s.f)^[i] x) ⊆ s.keys := by
    intro a ha
    obtain ⟨i, hi, rfl⟩ := List.mem_map.mp ha
    rw [List.mem_range] at hi
    cases Nat.eq_zero_or_pos i with
    | inl h0 => rw [h0]; exact hx0
    | inr hpos => exact hmem i hpos hi
  have hnodup : ((List.range N).map (fun i => (s.f)^[i] x)).Nodup := by
    rw [List.nodup_map_iff_inj_on (List.nodup_range N)]
    intro i hi j hj hij
    rw [List.mem_range] at hi hj
    by_contra hne
    rcases Nat.lt_or_ge i j with h | h
    · exact hinj i j h hj hij
    · exact hinj j i (by omega) hi hij.symm
  have := (List.subperm_of_subset hnodup hchain).length_le
  rw [List.length_map, List.length_range] at this
  omega

theorem rootedAt_update_iff {g : FPath → FPath} {x r : FPath} (hx : RootedAt g x r) :
    ∀ y s, RootedAt (Function.update g x r) y s ↔ RootedAt g y s := by
  have hr : g r = r := rootedAt_root hx
  have hr' : Function.update g x r r = r := by
    by_cases hrx : r = x
    · rw [hrx, Function.update_same]
    · rw [Function.update_noteq hrx]
      exact hr
  intro y s
  constructor
  · intro h
    obtain ⟨n, hn, hs⟩ := h
    induction n generalizing y with
    | zero =>
      rw [Function.iterate_zero_apply] at hn
      subst hn
      by_cases hyx : y = x
      · rw [hyx] at hs ⊢
        rw [Function.update_same] at hs
        exact hs ▸ hx
      · rw [Function.update_noteq hyx] at hs
        exact ⟨0, rfl, hs⟩
    | succ m ih =>
      rw [Function.iterate_succ_apply] at hn
      by_cases hyx : y = x
      · rw [hyx] at hn ⊢
        rw [Function.update_same, Function.iterate_fixed hr'] at hn
        exact hn ▸ hx
      · rw [Function.update_noteq hyx] at hn
        exact rootedAt_step (ih (g y) hn)
  · intro h
    obtain ⟨n, hn, hs⟩ := h
    induction n generalizing y with
    | zero =>
      rw [Function.iterate_zero_apply] at hn
      subst hn
      by_cases hyx : y = x
      · rw [hyx] at hs ⊢
        have hrx : r = x := rootedAt_unique hx ⟨0, rfl, hs⟩
        refine ⟨0, rfl, ?_⟩
        rw [Function.update_same]
        exact hrx
      · exact ⟨0, rfl, by rw [Function.update_noteq hyx]; exact hs⟩
    | succ m ih =>
      rw [Function.iterate_succ_apply] at hn
      by_cases hyx : y = x
      · rw [hyx] at hn ⊢
        have hsr : s = r :=
          rootedAt_unique ⟨m + 1, by rw [Function.iterate_succ_apply]; exact hn, hs⟩ hx
        rw [hsr]
        refine ⟨1, ?_, hr'⟩
        rw [Function.iterate_one]
        exact Function.update_same x r g
      · obtain ⟨k, hk, hks⟩ := ih (g y) hn
        refine ⟨k + 1, ?_, hks⟩
        rw [Function.iterate_succ_apply, Function.update_noteq hyx]
        exact hk

theorem ufFind_spec : ∀ (n : Nat) (f : FPath → FPath) (x : FPath),
    (∃ m, m ≤ n ∧ f (f^[m] x) = f^[m] x) →
    RootedAt f x (ufFind n f x).1
    ∧ (∀ y r, RootedAt (ufFind n f x).2 y r ↔ RootedAt f y r)
    ∧ (∀ z, (ufFind n f x).2 z = f z ∨ (ufFind n f x).2 z = (ufFind n f x).1) := by
  intro n
  induction n with
  | zero =>
    intro f x hm
    obtain ⟨m, hm0, hroot⟩ := hm
    rw [Nat.le_zero.mp hm0, Function.iterate_zero_apply] at hroot
    exact ⟨⟨0, rfl, hroot⟩, fun y r => Iff.rfl, fun z => Or.inl rfl⟩
  | succ n ih =>
    intro f x hm
    by_cases hfx : f x = x
    · have hred : ufFind (n + 1) f x = (x, f) := by
        simp only [ufFind, if_pos hfx]
      rw [hred]
      exact ⟨⟨0, rfl, hfx⟩, fun y r => Iff.rfl, fun z => Or.inl rfl⟩
    · have hred : ufFind (n + 1) f x
          = ((ufFind n f (f x)).1,
             Function.update (ufFind n f (f x)).2 x (ufFind n f (f x)).1) := by
        simp only [ufFind, if_neg hfx]
      have hm' : ∃ m, m ≤ n ∧ f (f^[m] (f x)) = f^[m] (f x) := by
        obtain ⟨m, hmn, hroot⟩ := hm
        cases m with
        | zero =>
          rw [Function.iterate_zero_apply] at hroot
          exact absurd hroot hfx
        | succ k =>
          refine ⟨k, by omega, ?_⟩
          rw [← Function.iterate_succ_apply]
          exact hroot
      obtain ⟨ha, hb, hc⟩ := ih f (f x) hm'
      have hax : RootedAt (ufFind n f (f x)).2 x (ufFind n f (f x)).1 :=
        (hb x _).mpr (rootedAt_step ha)
      rw [hred]
      refine ⟨rootedAt_step ha, ?_, ?_⟩
      · intro y r
        exact (rootedAt_update_iff hax y r).trans (hb y r)
      · intro z
        dsimp only
        by_cases hzx : z = x
        · rw [hzx]
          exact Or.inr (Function.update_same x _ _)
        · rw [Function.update_noteq hzx]
          exact hc z

theorem addKey_nodup {keys : List FPath} (h : keys.Nodup) (x : FPath) :
    (addKey keys x).Nodup := by
  unfold addKey
  by_cases hx : x ∈ keys
  · rw [if_pos hx]
    exact h
  · rw [if_neg hx]
    rw [List.nodup_append]
    exact ⟨h, List.nodup_singleton x, fun a ha hax => hx (by rwa [List.mem_singleton.mp hax] at ha)⟩

theorem mem_addKey_self (keys : List FPath) (x : FPath) : x ∈ addKey keys x := by
  unfold addKey
  by_cases hx : x ∈ keys
  · rw [if_pos hx]
    exact hx
  · rw [if_neg hx]
    exact List.mem_append_right _ (List.mem_singleton_self x)

theorem subset_addKey (keys : List FPath) (x : FPath) : keys ⊆ addKey keys x := by
  unfold addKey
  by_cases hx : x ∈ keys
  · rw [if_pos hx]
    exact fun a ha => ha
  · rw [if_neg hx]
    exact List.subset_append_left _ _


theorem addKey_length_ge (keys : List FPath) (x : FPath) :
    keys.length ≤ (addKey keys x).length := by
  unfold addKey
  by_cases hx : x ∈ keys
  · rw [if_pos hx]
  · rw [if_neg hx, List.length_append]
    omega

theorem root_mem {s : UFState} (hinv : UFInv s) {x r : FPath} (h : RootedAt s.f x r) :
    r = x ∨ r ∈ s.keys := by
  obtain ⟨n, hn, hroot⟩ := h
  clear hroot
  induction n generalizing r with
  | zero =>
    rw [Function.iterate_zero_apply] at hn
    exact Or.inl hn.symm
  | succ m ih =>
    rw [Function.iterate_succ_apply'] at hn
    rcases hinv.2.2.1 ((s.f)^[m] x) with hroot | hkeys
    · rw [hroot] at hn
      exact ih hn
    · rw [hn] at hkeys
      exact Or.inr hkeys

theorem stFind_spec {s : UFState} (hinv : UFInv s) (x : FPath) :
    RootedAt s.f x (stFind s x).1
    ∧ UFInv (stFind s x).2
    ∧ (stFind s x).2.keys = addKey s.keys x
    ∧ (∀ y r, RootedAt (stFind s x).2.f y r ↔ RootedAt s.f y r) := by
  have hfuel : ∃ m, m ≤ (addKey s.keys x).length ∧ s.f ((s.f)^[m] x) = (s.f)^[m] x := by
    obtain ⟨n, hn, hroot⟩ := rooted_steps_le hinv x
    exact ⟨n, le_trans hn (addKey_length_ge s.keys x), hroot⟩
  obtain ⟨ha, hb, hc⟩ := ufFind_spec (addKey s.keys x).length s.f x hfuel
  refine ⟨ha, ⟨addKey_nodup hinv.1 x, ?_, ?_, ?_⟩, rfl, hb⟩
  · intro y hy
    have hyk : y ∉ s.keys := fun h => hy (subset_addKey s.keys x h)
    have hroot : s.f y = y := hinv.2.1 y hyk
    exact rootedAt_root ((hb y y).mpr ⟨0, rfl, hroot⟩)
  · intro z
    show (ufFind (addKey s.keys x).length s.f x).2 z = z
      ∨ (ufFind (addKey s.keys x).length s.f x).2 z ∈ addKey s.keys x
    rcases hc z with h | h
    · rcases hinv.2.2.1 z with h2 | h2
      · left
        rw [h, h2]
      · right
        rw [h]
        exact subset_addKey _ _ h2
    · right
      rw [h]
      rcases root_mem hinv ha with h2 | h2
      · rw [h2]
        exact mem_addKey_self _ _
      · exact subset_addKey _ _ h2
  · intro y
    obtain ⟨r, hr⟩ := hinv.2.2.2 y
    exact ⟨r, (hb y r).mpr hr⟩

theorem rootD_rooted {s : UFState} (hinv : UFInv s) (x : FPath) :
    RootedAt s.f x (rootD s x) :=
  (stFind_spec hinv x).1

theorem rootedAt_link {g : FPath → FPath} {px py : FPath}
    (hpx : g px = px) (hpy : g py = py) (hne : px ≠ py) :
    ∀ y s, RootedAt g y s →
      RootedAt (Function.update g px py) y (if s = px then py else s) := by
  have hpy' : Function.update g px py py = py := by
    rw [Function.update_noteq (Ne.symm hne)]
    exact hpy
  have hpx2py : RootedAt (Function.update g px py) px py :=
    ⟨1, by rw [Function.iterate_one]; exact Function.update_same px py g, hpy'⟩
  intro y s h
  obtain ⟨n, hn, hs⟩ := h
  induction n generalizing y with
  | zero =>
    rw [Function.iterate_zero_apply] at hn
    subst hn
    by_cases hypx : y = px
    · rw [if_pos hypx, hypx]
      exact hpx2py
    · rw [if_neg hypx]
      exact ⟨0, rfl, by rw [Function.update_noteq hypx]; exact hs⟩
  | succ m ih =>
    by_cases hypx : y = px
    · have hspx : s = px := by
        rw [hypx, Function.iterate_fixed hpx] at hn
        exact hn.symm
      rw [hypx, if_pos hspx]
      exact hpx2py
    · rw [Function.iterate_succ_apply] at hn
      obtain ⟨k, hk, hks⟩ := ih (g y) hn
      refine ⟨k + 1, ?_, hks⟩
      rw [Function.iterate_succ_apply, Function.update_noteq hypx]
      exact hk

theorem stUnion_spec {s : UFState} (hinv : UFInv s) (x y : FPath) :
    UFInv (stUnion s x y)
    ∧ (∀ a b, SameRoot s.f a b → SameRoot (stUnion s x y).f a b)
    ∧ SameRoot (stUnion s x y).f x y
    ∧ s.keys ⊆ (stUnion s x y).keys
    ∧ x ∈ (stUnion s x y).keys ∧ y ∈ (stUnion s x y).keys := by
  obtain ⟨ha1, hinv1, hk1, hiff1⟩ := stFind_spec hinv x
  obtain ⟨ha2, hinv2, hk2, hiff2⟩ := stFind_spec hinv1 y
  have t1 : ∀ a r, RootedAt s.f a r → RootedAt (stFind (stFind s x).2 y).2.f a r :=
    fun a r h => (hiff2 a r).mpr ((hiff1 a r).mpr h)
  have hxs2 : RootedAt (stFind (stFind s x).2 y).2.f x (stFind s x).1 := t1 x _ ha1
  have hys2 : RootedAt (stFind (stFind s x).2 y).2.f y (stFind (stFind s x).2 y).1 :=
    (hiff2 y _).mpr ha2
  have hkeysy : (stFind (stFind s x).2 y).2.keys = addKey (addKey s.keys x) y := by
    rw [hk2, hk1]
  have hsub : s.keys ⊆ (stFind (stFind s x).2 y).2.keys := by
    rw [hkeysy]
    exact fun a ha => subset_addKey _ _ (subset_addKey _ _ ha)
  have hxk : x ∈ (stFind (stFind s x).2 y).2.keys := by
    rw [hkeysy]
    exact subset_addKey _ _ (mem_addKey_self s.keys x)
  have hyk : y ∈ (stFind (stFind s x).2 y).2.keys := by
    rw [hkeysy]
    exact mem_addKey_self _ y
  have hrxk : (stFind s x).1 ∈ (stFind (stFind s x).2 y).2.keys := by
    rcases root_mem hinv ha1 with h | h
    · rw [h]
      exact hxk
    · exact hsub h
  have hryk : (stFind (stFind s x).2 y).1 ∈ (stFind (stFind s x).2 y).2.keys := by
    rcases root_mem hinv1 ha2 with h | h
    · rw [h]
      exact hyk
    · rw [hkeysy]
      rw [hk1] at h
      exact subset_addKey _ _ h
  have hred : stUnion s x y = if (stFind s x).1 = (stFind (stFind s x).2 y).1
      then (stFind (stFind s x).2 y).2
      else ⟨Function.update (stFind (stFind s x).2 y).2.f (stFind s x).1
              (stFind (stFind s x).2 y).1,
            (stFind (stFind s x).2 y).2.keys⟩ := rfl
  by_cases hxy : (stFind s x).1 = (stFind (stFind s x).2 y).1
  · rw [hred, if_pos hxy]
    refine ⟨hinv2, ?_, ?_, hsub, hxk, hyk⟩
    · intro a b hab
      obtain ⟨r, hra, hrb⟩ := hab
      exact ⟨r, t1 a r hra, t1 b r hrb⟩
    · exact ⟨(stFind (stFind s x).2 y).1, hxy ▸ hxs2, hys2⟩
  · rw [hred, if_neg hxy]
    have hrxroot := rootedAt_root hxs2
    have hryroot := rootedAt_root hys2
    have hlink := rootedAt_link hrxroot hryroot hxy
    refine ⟨⟨hinv2.1, ?_, ?_, ?_⟩, ?_, ?_, hsub, hxk, hyk⟩
    · intro z hz
      have hne : z ≠ (stFind s x).1 := fun h => hz (h ▸ hrxk)
      dsimp only
      rw [Function.update_noteq hne]
      exact hinv2.2.1 z hz
    · intro z
      dsimp only
      by_cases hz : z = (stFind s x).1
      · right
        rw [hz, Function.update_same]
        exact hryk
      · rw [Function.update_noteq hz]
        exact hinv2.2.2.1 z
    · intro w
      obtain ⟨r, hr⟩ := hinv2.2.2.2 w
      exact ⟨_, hlink w r hr⟩
    · intro a b hab
      obtain ⟨r, hra, hrb⟩ := hab
      exact ⟨_, hlink a r (t1 a r hra), hlink b r (t1 b r hrb)⟩
    · have h1 := hlink x _ hxs2
      have h2 := hlink y _ hys2
      rw [if_pos rfl] at h1
      rw [if_neg (fun h => hxy h.symm)] at h2
      exact ⟨_, h1, h2⟩

theorem ufInitInv : UFInv ⟨id, []⟩ :=
  ⟨List.nodup_nil, fun _ _ => rfl, fun _ => Or.inl rfl, fun x => ⟨x, 0, rfl, rfl⟩⟩

theorem foldl_union_spec :
    ∀ (pairs : List (FPath × FPath × ℚ)) (s : UFState), UFInv s →
      UFInv (pairs.foldl (fun s pr => stUnion s pr.1 pr.2.1) s)
      ∧ (∀ a b, SameRoot s.f a b →
          SameRoot (pairs.foldl (fun s pr => stUnion s pr.1 pr.2.1) s).f a b)
      ∧ (∀ a b q, (a, b, q) ∈ pairs →
          SameRoot (pairs.foldl (fun s pr => stUnion s pr.1 pr.2.1) s).f a b
          ∧ a ∈ (pairs.foldl (fun s pr => stUnion s pr.1 pr.2.1) s).keys
          ∧ b ∈ (pairs.foldl (fun s pr => stUnion s pr.1 pr.2.1) s).keys)
      ∧ s.keys ⊆ (pairs.foldl (fun s pr => stUnion s pr.1 pr.2.1) s).keys := by
  intro pairs
  induction pairs with
  | nil =>
    intro s hinv
    exact ⟨hinv, fun a b h => h, fun a b q h => absurd h (List.not_mem_nil _),
      fun k hk => hk⟩
  | cons pr rest ih =>
    intro s hinv
    obtain ⟨pa, pb, pq⟩ := pr
    obtain ⟨hin, hpres, hnew, hsub, hxk, hyk⟩ := stUnion_spec hinv pa pb
    obtain ⟨ih1, ih2, ih3, ih4⟩ := ih (stUnion s pa pb) hin
    rw [List.foldl_cons]
    refine ⟨ih1, ?_, ?_, ?_⟩
    · intro a b h
      exact ih2 a b (hpres a b h)
    · intro a b q h
      rcases List.mem_cons.mp h with heq | hmem
      · injection heq with h1 h23
        injection h23 with h2 h3
        subst h1
        subst h2
        exact ⟨ih2 a b hnew, ih4 hxk, ih4 hyk⟩
      · exact ih3 a b q hmem
    · exact fun k hk => ih4 (hsub hk)

theorem rootD_eq_of_iff {s s2 : UFState} (hinv : UFInv s) (hinv2 : UFInv s2)
    (hiff : ∀ y r, RootedAt s2.f y r ↔ RootedAt s.f y r) : rootD s2 = rootD s := by
  funext z
  exact rootedAt_unique ((hiff z _).mp (rootD_rooted hinv2 z)) (rootD_rooted hinv z)

theorem groupByRoot_eq : ∀ (ks : List FPath) (s : UFState)
    (acc : List (FPath × List FPath)), UFInv s →
    groupByRoot s ks acc = pureGroups (rootD s) ks acc := by
  intro ks
  induction ks with
  | nil =>
    intro s acc _
    rfl
  | cons p rest ih =>
    intro s acc hinv
    obtain ⟨_, hinv2, _, hiff⟩ := stFind_spec hinv p
    show groupByRoot (stFind s p).2 rest (addToGroups acc (stFind s p).1 p) = _
    rw [ih (stFind s p).2 (addToGroups acc (stFind s p).1 p) hinv2,
      rootD_eq_of_iff hinv hinv2 hiff]
    rfl

theorem addToGroups_keys (r p : FPath) :
    ∀ acc : List (FPath × List FPath),
      (addToGroups acc r p).map Prod.fst =
        if r ∈ acc.map Prod.fst then acc.map Prod.fst else acc.map Prod.fst ++ [r] := by
  intro acc
  induction acc with
  | nil => simp [addToGroups]
  | cons e rest ih =>
    by_cases he : e.1 = r
    · have hred : addToGroups (e :: rest) r p = (e.1, e.2 ++ [p]) :: rest := by
        unfold addToGroups
        rw [if_pos he]
      rw [hred]
      simp only [List.map_cons]
      rw [if_pos (by rw [he]; exact List.mem_cons_self _ _)]
    · have hred : addToGroups (e :: rest) r p = e :: addToGroups rest r p := by
        show (if e.1 = r then (e.1, e.2 ++ [p]) :: rest else e :: addToGroups rest r p)
          = e :: addToGroups rest r p
        rw [if_neg he]
      rw [hred]
      simp only [List.map_cons, ih]
      by_cases hr : r ∈ rest.map Prod.fst
      · rw [if_pos hr, if_pos (List.mem_cons.mpr (Or.inr hr))]
      · rw [if_neg hr, if_neg (by
          intro h
          rcases List.mem_cons.mp h with h1 | h1
          · exact he h1.symm
          · exact hr h1)]
        rfl

theorem mem_addToGroups {r p : FPath} {e : FPath × List FPath} :
    ∀ {acc : List (FPath × List FPath)}, (acc.map Prod.fst).Nodup →
      (e ∈ addToGroups acc r p ↔
        (e ∈ acc ∧ e.1 ≠ r)
        ∨ (∃ m, (r, m) ∈ acc ∧ e = (r, m ++ [p]))
        ∨ (r ∉ acc.map Prod.fst ∧ e = (r, [p]))) := by
  intro acc
  induction acc with
  | nil =>
    intro _
    simp [addToGroups]
  | cons e0 rest ih =>
    intro hnd
    rw [List.map_cons, List.nodup_cons] at hnd
    by_cases he0 : e0.1 = r
    · have hred : addToGroups (e0 :: rest) r p = (e0.1, e0.2 ++ [p]) :: rest := by
        unfold addToGroups
        rw [if_pos he0]
      rw [hred]
      constructor
      · intro h
        rcases List.mem_cons.mp h with h1 | h1
        · refine Or.inr (Or.inl ⟨e0.2, ?_, ?_⟩)
          · have : (r, e0.2) = e0 := by rw [← he0]
            rw [this]
            exact List.mem_cons_self _ _
          · rw [h1, he0]
        · refine Or.inl ⟨List.mem_cons.mpr (Or.inr h1), ?_⟩
          intro her
          apply hnd.1
          rw [he0.trans her.symm]
          exact List.mem_map_of_mem Prod.fst h1
      · intro h
        rcases h with ⟨hmem, hne⟩ | ⟨m, hm, he⟩ | ⟨hnmem, _⟩
        · rcases List.mem_cons.mp hmem with h1 | h1
          · exact absurd (by rw [h1]; exact he0) hne
          · exact List.mem_cons.mpr (Or.inr h1)
        · rcases List.mem_cons.mp hm with h1 | h1
          · refine List.mem_cons.mpr (Or.inl ?_)
            have hm2 : m = e0.2 := congrArg Prod.snd h1
            rw [he, hm2, ← he0]
          · exfalso
            apply hnd.1
            rw [he0]
            exact List.mem_map_of_mem Prod.fst h1
        · exact absurd (List.mem_cons.mpr (Or.inl he0.symm)) hnmem
    · have hred : addToGroups (e0 :: rest) r p = e0 :: addToGroups rest r p := by
        show (if e0.1 = r then (e0.1, e0.2 ++ [p]) :: rest else e0 :: addToGroups rest r p)
          = e0 :: addToGroups rest r p
        rw [if_neg he0]
      rw [hred]
      constructor
      · intro h
        rcases List.mem_cons.mp h with h1 | h1
        · exact Or.inl ⟨List.mem_cons.mpr (Or.inl h1), by rw [h1]; exact he0⟩
        · rcases (ih hnd.2).mp h1 with ⟨hm, hne⟩ | ⟨m, hm, he⟩ | ⟨hnm, he⟩
          · exact Or.inl ⟨List.mem_cons.mpr (Or.inr hm), hne⟩
          · exact Or.inr (Or.inl ⟨m, List.mem_cons.mpr (Or.inr hm), he⟩)
          · refine Or.inr (Or.inr ⟨?_, he⟩)
            intro hc
            rcases List.mem_cons.mp hc with hc1 | hc1
            · exact he0 hc1.symm
            · exact hnm hc1
      · intro h
        rcases h with ⟨hmem, hne⟩ | ⟨m, hm, he⟩ | ⟨hnmem, he⟩
        · rcases List.mem_cons.mp hmem with h1 | h1
          · exact List.mem_cons.mpr (Or.inl h1)
          · exact List.mem_cons.mpr (Or.inr ((ih hnd.2).mpr (Or.inl ⟨h1, hne⟩)))
        · rcases List.mem_cons.mp hm with h1 | h1
          · exact absurd (congrArg Prod.fst h1.symm) he0
          · exact List.mem_cons.mpr (Or.inr ((ih hnd.2).mpr (Or.inr (Or.inl ⟨m, h1, he⟩))))
        · refine List.mem_cons.mpr (Or.inr ((ih hnd.2).mpr (Or.inr (Or.inr ⟨?_, he⟩))))
          intro hc
          exact hnmem (List.mem_cons.mpr (Or.inr hc))

theorem addToGroups_good {rho : FPath → FPath} {processed : List FPath}
    {acc : List (FPath × List FPath)} (h : GroupsGood rho processed acc) (p : FPath) :
    GroupsGood rho (processed ++ [p]) (addToGroups acc (rho p) p) := by
  obtain ⟨hnd, hfil, hcov⟩ := h
  refine ⟨?_, ?_, ?_⟩
  · rw [addToGroups_keys]
    by_cases hr : rho p ∈ acc.map Prod.fst
    · rw [if_pos hr]
      exact hnd
    · rw [if_neg hr]
      rw [List.nodup_append]
      exact ⟨hnd, List.nodup_singleton _,
        fun a ha hax => hr (by rwa [List.mem_singleton.mp hax] at ha)⟩
  · intro e he
    rcases (mem_addToGroups hnd).mp he with ⟨hmem, hne⟩ | ⟨m, hm, heq⟩ | ⟨hnm, heq⟩
    · rw [List.filter_append]
      have hd : decide (rho p = e.1) = false :=
        decide_eq_false (fun hh : rho p = e.1 => hne hh.symm)
      have hp : [p].filter (fun q => decide (rho q = e.1)) = [] := by
        simp [List.filter_singleton, hd]
      rw [hp, List.append_nil]
      exact hfil e hmem
    · subst heq
      rw [List.filter_append]
      have hm2 := hfil (rho p, m) hm
      dsimp only at hm2 ⊢
      rw [← hm2]
      have hd : decide (rho p = rho p) = true := decide_eq_true rfl
      have hp : [p].filter (fun q => decide (rho q = rho p)) = [p] := by
        simp [List.filter_singleton, hd]
      rw [hp]
    · subst heq
      rw [List.filter_append]
      dsimp only
      have h0 : processed.filter (fun q => decide (rho q = rho p)) = [] := by
        rw [List.filter_eq_nil_iff]
        intro q hq hdec
        rw [decide_eq_true_eq] at hdec
        exact hnm (hcov (rho p) ⟨q, hq, hdec⟩)
      have hd : decide (rho p = rho p) = true := decide_eq_true rfl
      have hp : [p].filter (fun q => decide (rho q = rho p)) = [p] := by
        simp [List.filter_singleton, hd]
      rw [h0, hp]
      rfl
  · intro r2 hr2
    obtain ⟨q, hq, hrq⟩ := hr2
    rw [addToGroups_keys]
    rcases List.mem_append.mp hq with hq1 | hq2
    · have hin := hcov r2 ⟨q, hq1, hrq⟩
      by_cases hr : rho p ∈ acc.map Prod.fst
      · rw [if_pos hr]
        exact hin
      · rw [if_neg hr]
        exact List.mem_append_left _ hin
    · have hqp : q = p := List.mem_singleton.mp hq2
      rw [hqp] at hrq
      by_cases hr : rho p ∈ acc.map Prod.fst
      · rw [if_pos hr, ← hrq]
        exact hr
      · rw [if_neg hr, ← hrq]
        exact List.mem_append_right _ (List.mem_singleton_self _)

theorem pureGroups_good (rho : FPath → FPath) :
    ∀ (ks processed : List FPath) (acc : List (FPath × List FPath)),
      GroupsGood rho processed acc →
      GroupsGood rho (processed ++ ks) (pureGroups rho ks acc) := by
  intro ks
  induction ks with
  | nil =>
    intro processed acc h
    rw [List.append_nil]
    exact h
  | cons p rest ih =>
    intro processed acc h
    have h3 := ih (processed ++ [p]) _ (addToGroups_good h p)
    rw [List.append_assoc, List.singleton_append] at h3
    exact h3

theorem two_le_length_of_two_mem {α : Type} {l : List α} {a b : α}
    (ha : a ∈ l) (hb : b ∈ l) (hab : a ≠ b) : 2 ≤ l.length := by
  cases l with
  | nil => exact absurd ha (List.not_mem_nil _)
  | cons x t =>
    cases t with
    | nil =>
      rw [List.mem_singleton] at ha hb
      exact absurd (ha.trans hb.symm) hab
    | cons y u =>
      simp only [List.length_cons]
      omega

theorem pairs_to_groups_spec (pairs : List (FPath × FPath × ℚ)) :
    (∀ a b q, (a, b, q) ∈ pairs → a ≠ b →
      ∃ g ∈ pairs_to_groups pairs, a ∈ g ∧ b ∈ g)
    ∧ (∀ g ∈ pairs_to_groups pairs,
        List.Sorted pathLe g ∧ g.Nodup ∧ 2 ≤ g.length)
    ∧ List.Pairwise (fun g g2 => ∀ p ∈ g, p ∉ g2) (pairs_to_groups pairs) := by
  by_cases hemp : pairs.isEmpty
  · have hz : pairs_to_groups pairs = [] := by
      unfold pairs_to_groups
      rw [if_pos hemp]
    rw [hz]
    refine ⟨?_, fun g hg => absurd hg (List.not_mem_nil _), List.Pairwise.nil⟩
    intro a b q hmem _
    rw [List.isEmpty_iff.mp hemp] at hmem
    exact absurd hmem (List.not_mem_nil _)
  · set S : UFState := pairs.foldl (fun s pr => stUnion s pr.1 pr.2.1) ⟨id, []⟩ with hS
    have hred : pairs_to_groups pairs
        = (((groupByRoot S S.keys []).map Prod.snd).filter
            (fun g => decide (2 ≤ g.length))).map
            (fun g => List.insertionSort pathLe g) := by
      unfold pairs_to_groups
      rw [if_neg hemp]
    obtain ⟨hinvS, _, hpairs, _⟩ := foldl_union_spec pairs ⟨id, []⟩ ufInitInv
    have hgb : groupByRoot S S.keys [] = pureGroups (rootD S) S.keys [] :=
      groupByRoot_eq S.keys S [] hinvS
    have hgood : GroupsGood (rootD S) S.keys (pureGroups (rootD S) S.keys []) := by
      have hbase : GroupsGood (rootD S) [] [] := by
        refine ⟨List.nodup_nil, ?_, ?_⟩
        · intro e he
          exact absurd he (List.not_mem_nil _)
        · intro r hr
          obtain ⟨q, hq, _⟩ := hr
          exact absurd hq (List.not_mem_nil _)
      have := pureGroups_good (rootD S) S.keys [] [] hbase
      rwa [List.nil_append] at this
    obtain ⟨hnd, hfil, hcov⟩ := hgood
    haveI : IsTotal FPath pathLe := ⟨pathLe_total⟩
    haveI : IsTrans FPath pathLe := ⟨fun a b c h1 h2 => pathLe_trans h1 h2⟩
    refine ⟨?_, ?_, ?_⟩
    · intro a b q hmem hne
      obtain ⟨⟨r, hra, hrb⟩, haK, hbK⟩ := hpairs a b q hmem
      have h1 : rootD S a = r := rootedAt_unique (rootD_rooted hinvS a) hra
      have h2 : rootD S b = r := rootedAt_unique (rootD_rooted hinvS b) hrb
      have hmemfst : rootD S a ∈ (pureGroups (rootD S) S.keys []).map Prod.fst :=
        hcov _ ⟨a, haK, rfl⟩
      obtain ⟨e, heacc, hefst⟩ := List.mem_map.mp hmemfst
      have hae : a ∈ e.2 := by
        rw [hfil e heacc]
        refine List.mem_filter.mpr ⟨haK, ?_⟩
        rw [hefst]
        exact decide_eq_true rfl
      have hbe : b ∈ e.2 := by
        rw [hfil e heacc]
        refine List.mem_filter.mpr ⟨hbK, ?_⟩
        rw [hefst]
        exact decide_eq_true (h2.trans h1.symm)
      have hlen : 2 ≤ e.2.length := two_le_length_of_two_mem hae hbe hne
      refine ⟨List.insertionSort pathLe e.2, ?_, ?_, ?_⟩
      · rw [hred, hgb]
        exact List.mem_map.mpr ⟨e.2,
          List.mem_filter.mpr ⟨List.mem_map.mpr ⟨e, heacc, rfl⟩, decide_eq_true hlen⟩, rfl⟩
      · exact (List.perm_insertionSort pathLe e.2).mem_iff.mpr hae
      · exact (List.perm_insertionSort pathLe e.2).mem_iff.mpr hbe
    · intro g hg
      rw [hred, hgb] at hg
      obtain ⟨m, hmf, hsort⟩ := List.mem_map.mp hg
      obtain ⟨hmm, hml⟩ := List.mem_filter.mp hmf
      obtain ⟨e, he, hesnd⟩ := List.mem_map.mp hmm
      rw [← hsort]
      have hmnd : m.Nodup := by
        rw [← hesnd, hfil e he]
        exact List.Nodup.filter _ hinvS.1
      rw [decide_eq_true_eq] at hml
      refine ⟨List.sorted_insertionSort pathLe m, ?_, ?_⟩
      · exact (List.perm_insertionSort pathLe m).nodup_iff.mpr hmnd
      · rw [(List.perm_insertionSort pathLe m).length_eq]
        exact hml
    · rw [hred, hgb]
      have hnd2 : List.Pairwise (fun e e2 => e.1 ≠ e2.1)
          (pureGroups (rootD S) S.keys []) := List.pairwise_map.mp hnd
      have hdisj : List.Pairwise (fun e e2 => ∀ p ∈ e.2, p ∉ e2.2)
          (pureGroups (rootD S) S.keys []) := by
        refine List.Pairwise.imp_of_mem ?_ hnd2
        intro e e2 he he2 hne p hp hp2
        rw [hfil e he] at hp
        rw [hfil e2 he2] at hp2
        have g1 := of_decide_eq_true (List.mem_filter.mp hp).2
        have g2 := of_decide_eq_true (List.mem_filter.mp hp2).2
        exact hne (g1.symm.trans g2)
      have hdisj2 : List.Pairwise (fun m m2 => ∀ p ∈ m, p ∉ m2)
          ((pureGroups (rootD S) S.keys []).map Prod.snd) :=
        List.pairwise_map.mpr hdisj
      have hdisj3 := hdisj2.filter (fun g => decide (2 ≤ g.length))
      refine List.pairwise_map.mpr ?_
      refine hdisj3.imp ?_
      intro m m2 h p hp hp2
      exact h p ((List.perm_insertionSort pathLe m).mem_iff.mp hp)
        ((List.perm_insertionSort pathLe m2).mem_iff.mp hp2)

/-- C3: `pairs_to_groups` places the two distinct paths of every listed
pair into a common output cluster; every output cluster is sorted in path
order with distinct members and has at least 2 of them (singleton classes
are dropped by the size filter); and clusters are pairwise disjoint. -/
theorem c3_union_find_grouping :
    ∀ pairs : List (FPath × FPath × ℚ),
      (∀ a b q, (a, b, q) ∈ pairs → a ≠ b →
        ∃ g ∈ pairs_to_groups pairs, a ∈ g ∧ b ∈ g)
      ∧ (∀ g ∈ pairs_to_groups pairs,
          List.Sorted pathLe g ∧ g.Nodup ∧ 2 ≤ g.length)
      ∧ List.Pairwise (fun g g2 => ∀ p ∈ g, p ∉ g2) (pairs_to_groups pairs) :=
  pairs_to_groups_spec

theorem c3_union_find_grouping_witness :
    ∃ g ∈ pairs_to_groups [("a", "b", (1 : ℚ))], "a" ∈ g ∧ "b" ∈ g :=
  (c3_union_find_grouping [("a", "b", 1)]).1 "a" "b" 1
    (List.mem_singleton.mpr rfl) (by decide)
